import Mathlib

/-!
Shallow embedding of the core of `sim-explorer` (dnv-opensource/sim-explorer):
the assertion engine (`assertion.py: Assertion.eval_series`), the set-action
tables (`system_interface.py: update_refs_values, _add_set`), the legality
rules (`system_interface.py: default_initial, allowed_action`), the spec
parsers (`case.py: _disect_at_time_spec, _disect_at_time_tl,
Cases.disect_variable`), the case construction copy semantics
(`case.py: Case.__init__`) and the run loop (`case.py: Case.run`).

Machine floats of the Python source are modelled as exact rationals; the
dynamic Python values that matter to the claims are modelled by small
inductive types.  Fallible Python code (assert / raised exceptions) is
modelled with `Option`.
-/

namespace SimExplorer

/-- Temporal quantifier, from `models.py` (`A`/`ALWAYS` = 1, `F`/`FINALLY` = 2,
`T`/`TIME` = 3, `UNDEFINED` = 0; the long names are aliases of the letters). -/
inductive Temporal where
  | undefined
  | A
  | F
  | T
deriving DecidableEq, Repr

/-- Alias `Temporal.ALWAYS = Temporal.A` of `models.py`. -/
def Temporal.ALWAYS : Temporal := Temporal.A

/-! ## Assertion.eval_series (assertion.py)

`eval_series` first evaluates the compiled predicate on every row, giving the
lists `times` and `results`; for temporal type `A`/`F` every result is coerced
with `bool(...)`.  We embed the aggregation loops over the already-evaluated
rows `(time, result)`.  -/

/-- `times[-1]` of a row list (the Python code raises on an empty list; all
claims assume a non-empty series, so the default is irrelevant). -/
def lastTime (rows : List (ℚ × Bool)) : ℚ :=
  (rows.getLastD (0, false)).1

/-- The `A` loop of `eval_series`: `for t, v in zip(times, results): if v:
return (t, True)`. -/
def firstTrue : List (ℚ × Bool) → Option ℚ
  | [] => none
  | (t, v) :: rest => if v then some t else firstTrue rest

/-- `eval_series` for temporal type `A` (Always): first row evaluating true,
else `(times[-1], False)`. -/
def eval_series_A (rows : List (ℚ × Bool)) : ℚ × Bool :=
  match firstTrue rows with
  | some t => (t, true)
  | none => (lastTime rows, false)

/-- One iteration of the `F` loop of `eval_series`:
`if v and t_true > t: t_true = t elif not v and t_true < t: t_true = times[-1]`. -/
def finallyStep (tlast : ℚ) (acc : ℚ) (row : ℚ × Bool) : ℚ :=
  if row.2 = true ∧ row.1 < acc then row.1
  else if row.2 = false ∧ acc < row.1 then tlast
  else acc

/-- `eval_series` for temporal type `F` (Finally): `t_true` starts at
`times[-1]`, is lowered by true rows and reset by false rows; the verdict is
`t_true < times[-1]`. -/
def eval_series_F (rows : List (ℚ × Bool)) : ℚ × Bool :=
  let tlast := lastTime rows
  let tTrue := rows.foldl (finallyStep tlast) tlast
  (tTrue, decide (tTrue < tlast))

/-- A dynamic Python value reaching `np.interp` in `eval_series`: a bool or a
number (Python `bool` is converted to `1.0`/`0.0` by numpy). -/
inductive PVal where
  | bl (b : Bool)
  | num (x : ℚ)
deriving DecidableEq, Repr

/-- numpy's float conversion of a result value. -/
def PVal.toFloat : PVal → ℚ
  | .bl true => 1
  | .bl false => 0
  | .num x => x

/-- `isinstance(res, bool)` of a result value. -/
def PVal.isBool : PVal → Bool
  | .bl _ => true
  | .num _ => false

/-- `np.interp(t0, xp, fp)` for increasing `xp`: clip below the first sample,
linearly interpolate on the first bracketing segment, clip above the last. -/
def np_interp (t0 : ℚ) : List (ℚ × ℚ) → ℚ
  | [] => 0
  | [(_, y)] => y
  | (x1, y1) :: (x2, y2) :: rest =>
    if t0 ≤ x1 then y1
    else if t0 ≤ x2 then y1 + (y2 - y1) * (t0 - x1) / (x2 - x1)
    else np_interp t0 ((x2, y2) :: rest)

/-- `eval_series` for temporal type `T` (Time): interpolate the raw results at
`t0`; the result is cast back to bool only when every row's result was a bool. -/
def eval_series_T (t0 : ℚ) (rows : List (ℚ × PVal)) : ℚ × PVal :=
  let interpolated := np_interp t0 (rows.map fun r => (r.1, r.2.toFloat))
  (t0, if rows.all (fun r => r.2.isBool) then .bl (decide (interpolated ≠ 0))
       else .num interpolated)

/-- Least index `i` such that every row from `i` on evaluates true (the
stabilization point of a series; `rows.length` + possibly when the last row is
false). Used only to state properties of `eval_series_F`. -/
def suffixStart : List (ℚ × Bool) → ℕ
  | [] => 0
  | (_, v) :: rest => if v = true ∧ rest.all (·.2) then 0 else suffixStart rest + 1

/-- Time of row `i` (default 0 out of range). -/
def timeAt (rows : List (ℚ × Bool)) (i : ℕ) : ℚ :=
  (rows.getD i (0, false)).1

theorem suffixStart_le_length (xs : List (ℚ × Bool)) : suffixStart xs ≤ xs.length := by
  induction xs with
  | nil => simp [suffixStart]
  | cons hd tl ih =>
    obtain ⟨a, b⟩ := hd
    by_cases h : b = true ∧ tl.all (·.2)
    · simp [suffixStart, h]
    · simp only [suffixStart, if_neg h, List.length_cons]
      omega

theorem suffixStart_all (xs : List (ℚ × Bool)) :
    (xs.drop (suffixStart xs)).all (·.2) = true := by
  induction xs with
  | nil => simp [suffixStart]
  | cons hd tl ih =>
    obtain ⟨a, b⟩ := hd
    by_cases h : b = true ∧ tl.all (·.2)
    · obtain ⟨hb, hall⟩ := h
      subst hb
      simp [suffixStart, hall]
    · simpa [suffixStart, if_neg h] using ih

theorem suffixStart_min (xs : List (ℚ × Bool)) (i : ℕ)
    (h : (xs.drop i).all (·.2) = true) : suffixStart xs ≤ i := by
  induction xs generalizing i with
  | nil => simp [suffixStart]
  | cons hd tl ih =>
    obtain ⟨a, b⟩ := hd
    match i with
    | 0 =>
      simp only [List.drop_zero, List.all_cons, Bool.and_eq_true] at h
      simp [suffixStart, h.1, h.2]
    | i + 1 =>
      simp only [List.drop_succ_cons] at h
      by_cases hc : b = true ∧ tl.all (·.2)
      · simp [suffixStart, hc]
      · simp only [suffixStart, if_neg hc]
        exact Nat.succ_le_succ (ih i h)

theorem suffixStart_cons (q : ℚ) (c : Bool) (l : List (ℚ × Bool)) :
    suffixStart ((q, c) :: l) =
      if c = true ∧ l.all (·.2) then 0 else suffixStart l + 1 := rfl

theorem suffixStart_concat_true (xs : List (ℚ × Bool)) (t : ℚ) :
    suffixStart (xs ++ [(t, true)]) =
      if suffixStart xs < xs.length then suffixStart xs else xs.length := by
  induction xs with
  | nil => simp [suffixStart]
  | cons hd tl ih =>
    obtain ⟨a, b⟩ := hd
    have hle := suffixStart_le_length tl
    have happ : ((tl ++ [(t, true)]).all (·.2)) = tl.all (·.2) := by
      simp [List.all_append]
    rw [List.cons_append, suffixStart_cons, suffixStart_cons, happ, ih,
      List.length_cons]
    split_ifs <;> omega

theorem suffixStart_concat_false (xs : List (ℚ × Bool)) (t : ℚ) :
    suffixStart (xs ++ [(t, false)]) = xs.length + 1 := by
  induction xs with
  | nil => simp [suffixStart]
  | cons hd tl ih =>
    obtain ⟨a, b⟩ := hd
    have happ : ((tl ++ [(t, false)]).all (·.2)) = false := by
      simp [List.all_append]
    rw [List.cons_append, suffixStart_cons, happ, ih, List.length_cons]
    simp

theorem timeAt_append_left (xs ys : List (ℚ × Bool)) (i : ℕ) (h : i < xs.length) :
    timeAt (xs ++ ys) i = timeAt xs i := by
  unfold timeAt
  rw [List.getD_append _ _ _ _ h]

theorem timeAt_concat_length (xs : List (ℚ × Bool)) (p : ℚ × Bool) :
    timeAt (xs ++ [p]) xs.length = p.1 := by
  unfold timeAt
  rw [List.getD_eq_getElem _ _ (by simp)]
  simp

theorem timeAt_mem (xs : List (ℚ × Bool)) (i : ℕ) (h : i < xs.length) :
    (xs.getD i (0, false)) ∈ xs := by
  rw [List.getD_eq_getElem _ _ h]
  exact List.getElem_mem h

/-- The `F` loop of `eval_series` on a prefix whose times all precede
`times[-1]`: it computes the start time of the final all-true run when that
run is non-empty, else stays at `times[-1]`. -/
theorem finally_foldl (tlast : ℚ) (xs : List (ℚ × Bool))
    (hlt : ∀ p ∈ xs, p.1 < tlast)
    (hsort : xs.Pairwise (fun a b : ℚ × Bool => a.1 < b.1)) :
    xs.foldl (finallyStep tlast) tlast =
      if suffixStart xs < xs.length then timeAt xs (suffixStart xs) else tlast := by
  induction xs using List.reverseRecOn with
  | nil => simp [suffixStart]
  | append_singleton ys x ih =>
    obtain ⟨t, v⟩ := x
    have hys : ∀ p ∈ ys, p.1 < tlast := fun p hp => hlt p (List.mem_append_left _ hp)
    have ht : t < tlast := hlt (t, v) (by simp)
    rw [List.pairwise_append] at hsort
    have hxt : ∀ p ∈ ys, p.1 < t := fun p hp => hsort.2.2 p hp (t, v) (by simp)
    rw [List.foldl_concat, ih hys hsort.1]
    have hlen : (ys ++ [(t, v)]).length = ys.length + 1 := by simp
    cases v with
    | false =>
      rw [suffixStart_concat_false, hlen,
        if_neg (show ¬ys.length + 1 < ys.length + 1 by omega)]
      by_cases hs : suffixStart ys < ys.length
      · have hlt' : timeAt ys (suffixStart ys) < t :=
          hxt _ (timeAt_mem ys (suffixStart ys) hs)
        rw [if_pos hs]
        simp [finallyStep, hlt']
      · rw [if_neg hs]
        simp [finallyStep, not_lt.mpr (le_of_lt ht)]
    | true =>
      rw [suffixStart_concat_true, hlen]
      by_cases hs : suffixStart ys < ys.length
      · have hlt' : timeAt ys (suffixStart ys) < t :=
          hxt _ (timeAt_mem ys (suffixStart ys) hs)
        rw [if_pos hs, if_pos hs,
          if_pos (show suffixStart ys < ys.length + 1 by omega),
          timeAt_append_left ys [(t, true)] _ hs]
        simp [finallyStep, not_lt.mpr (le_of_lt hlt')]
      · rw [if_neg hs, if_neg hs,
          if_pos (show ys.length < ys.length + 1 by omega),
          timeAt_concat_length]
        simp [finallyStep, ht]

/-- Closed form of `eval_series` with temporal type `F` on a non-empty series
with strictly increasing times. -/
theorem eval_series_F_eq (rows : List (ℚ × Bool)) (hne : rows ≠ [])
    (hsort : rows.Pairwise (fun a b : ℚ × Bool => a.1 < b.1)) :
    eval_series_F rows =
      if suffixStart rows + 1 < rows.length
      then (timeAt rows (suffixStart rows), true)
      else (lastTime rows, false) := by
  rcases List.eq_nil_or_concat rows with rfl | ⟨ys, x, rfl⟩
  · exact absurd rfl hne
  rw [List.concat_eq_append] at *
  obtain ⟨t, v⟩ := x
  have hlast : lastTime (ys ++ [(t, v)]) = t := by
    simp [lastTime, List.getLastD_concat]
  rw [List.pairwise_append] at hsort
  have hxt : ∀ p ∈ ys, p.1 < t := fun p hp => hsort.2.2 p hp (t, v) (by simp)
  unfold eval_series_F
  dsimp only
  rw [hlast, List.foldl_concat, finally_foldl t ys hxt hsort.1]
  have hlen : (ys ++ [(t, v)]).length = ys.length + 1 := by simp
  cases v with
  | false =>
    rw [suffixStart_concat_false, hlen,
      if_neg (show ¬ys.length + 1 + 1 < ys.length + 1 by omega)]
    by_cases hs : suffixStart ys < ys.length
    · have hlt' : timeAt ys (suffixStart ys) < t :=
        hxt _ (timeAt_mem ys (suffixStart ys) hs)
      rw [if_pos hs]
      simp [finallyStep, hlt', hlast]
    · rw [if_neg hs]
      simp [finallyStep, hlast]
  | true =>
    rw [suffixStart_concat_true, hlen]
    by_cases hs : suffixStart ys < ys.length
    · have hlt' : timeAt ys (suffixStart ys) < t :=
        hxt _ (timeAt_mem ys (suffixStart ys) hs)
      rw [if_pos hs, if_pos hs,
        if_pos (show suffixStart ys + 1 < ys.length + 1 by omega),
        timeAt_append_left ys [(t, true)] _ hs]
      simp [finallyStep, not_lt.mpr (le_of_lt hlt'), hlast, hlt']
    · rw [if_neg hs, if_neg hs,
        if_neg (show ¬ys.length + 1 < ys.length + 1 by omega)]
      simp [finallyStep, hlast]

theorem firstTrue_none_of_all_false (xs : List (ℚ × Bool))
    (h : ∀ p ∈ xs, p.2 = false) : firstTrue xs = none := by
  induction xs with
  | nil => rfl
  | cons hd tl ih =>
    obtain ⟨a, b⟩ := hd
    have hb : b = false := h (a, b) (by simp)
    subst hb
    simpa [firstTrue] using ih fun p hp => h p (by simp [hp])

theorem all_false_of_firstTrue_none (xs : List (ℚ × Bool))
    (h : firstTrue xs = none) : ∀ p ∈ xs, p.2 = false := by
  induction xs with
  | nil => simp
  | cons hd tl ih =>
    obtain ⟨a, b⟩ := hd
    cases b with
    | true => simp [firstTrue] at h
    | false =>
      simp only [firstTrue, Bool.false_eq_true, if_false] at h
      intro p hp
      rcases List.mem_cons.mp hp with rfl | hp'
      · rfl
      · exact ih h p hp'

theorem firstTrue_some_spec (xs : List (ℚ × Bool)) (t : ℚ)
    (h : firstTrue xs = some t) :
    ∃ i, ∃ hi : i < xs.length,
      (xs.get ⟨i, hi⟩).1 = t ∧ (xs.get ⟨i, hi⟩).2 = true ∧
      ∀ j (hj : j < i), (xs.get ⟨j, hj.trans hi⟩).2 = false := by
  induction xs generalizing t with
  | nil => simp [firstTrue] at h
  | cons hd tl ih =>
    obtain ⟨a, b⟩ := hd
    cases b with
    | true =>
      simp only [firstTrue, if_true, Option.some.injEq] at h
      exact ⟨0, by simp, by simp [h], rfl, fun j hj => absurd hj (Nat.not_lt_zero j)⟩
    | false =>
      simp only [firstTrue, Bool.false_eq_true, if_false] at h
      obtain ⟨i, hi, h1, h2, h3⟩ := ih t h
      refine ⟨i + 1, Nat.succ_lt_succ hi, h1, h2, fun j hj => ?_⟩
      match j with
      | 0 => rfl
      | j + 1 => exact h3 j (Nat.lt_of_succ_lt_succ hj)

/-- C2: for every non-empty series of `(time, result)` rows, `eval_series`
with temporal quantifier `Always` returns `(t, true)` where `t` is the first
time at which the predicate evaluates true, if any sample is true; otherwise
it returns `(last time of the series, false)`. -/
theorem eval_series_A_first_true (rows : List (ℚ × Bool)) (hne : rows ≠ []) :
    ((∃ p ∈ rows, p.2 = true) →
      ∃ i, ∃ hi : i < rows.length,
        eval_series_A rows = ((rows.get ⟨i, hi⟩).1, true) ∧
        (rows.get ⟨i, hi⟩).2 = true ∧
        ∀ j (hj : j < i), (rows.get ⟨j, hj.trans hi⟩).2 = false) ∧
    ((∀ p ∈ rows, p.2 = false) → eval_series_A rows = (lastTime rows, false)) := by
  constructor
  · rintro ⟨p, hp, hpt⟩
    rcases hft : firstTrue rows with _ | t
    · exact absurd hpt (by simp [all_false_of_firstTrue_none rows hft p hp])
    · obtain ⟨i, hi, h1, h2, h3⟩ := firstTrue_some_spec rows t hft
      refine ⟨i, hi, ?_, h2, h3⟩
      rw [List.get_eq_getElem] at h1
      simp [eval_series_A, hft, h1]
  · intro hall
    simp [eval_series_A, firstTrue_none_of_all_false rows hall]

/-- Witness for C2 at the concrete series `[(0, false), (1, true)]`. -/
theorem eval_series_A_first_true_witness :
    ([((0 : ℚ), false), (1, true)] : List (ℚ × Bool)) ≠ [] ∧
    (((∃ p ∈ [((0 : ℚ), false), (1, true)], p.2 = true) →
      ∃ i, ∃ hi : i < ([((0 : ℚ), false), (1, true)] : List (ℚ × Bool)).length,
        eval_series_A [((0 : ℚ), false), (1, true)] =
          ((([((0 : ℚ), false), (1, true)] : List (ℚ × Bool)).get ⟨i, hi⟩).1, true) ∧
        (([((0 : ℚ), false), (1, true)] : List (ℚ × Bool)).get ⟨i, hi⟩).2 = true ∧
        ∀ j (hj : j < i),
          (([((0 : ℚ), false), (1, true)] : List (ℚ × Bool)).get ⟨j, hj.trans hi⟩).2 = false) ∧
    ((∀ p ∈ [((0 : ℚ), false), (1, true)], p.2 = false) →
      eval_series_A [((0 : ℚ), false), (1, true)] =
        (lastTime [((0 : ℚ), false), (1, true)], false))) :=
  ⟨by decide, eval_series_A_first_true [((0 : ℚ), false), (1, true)] (by decide)⟩

/-- C1 counterexample: for the series `[(0, false), (1, true)]` the suffix
consisting of the last sample alone is entirely true, yet `eval_series` with
temporal quantifier `Finally` returns the verdict `false` (with the final
time), because the code's verdict is `t_true < times[-1]`.  The claim's
"verdict is true iff some suffix of the series is entirely true" is thus
false on this input. -/
theorem eval_series_F_counterexample :
    eval_series_F [((0 : ℚ), false), (1, true)] = (1, false) ∧
    (([((0 : ℚ), false), (1, true)] : List (ℚ × Bool)).drop 1).all (·.2) = true ∧
    ([((0 : ℚ), false), (1, true)] : List (ℚ × Bool)).drop 1 ≠ [] := by
  decide

/-- C1 (amended): for every non-empty series with strictly increasing times,
`eval_series` with temporal quantifier `Finally` returns the earliest time
from which the predicate evaluates true at every sample through the end of
the series when that time lies strictly before the final sample time, and
the final time otherwise; the verdict is true iff some entirely-true suffix
starts strictly before the last sample (i.e. contains at least two samples).
`suffixStart rows` is the earliest all-true suffix start (fourth and fifth
conjuncts). -/
theorem eval_series_F_stabilization (rows : List (ℚ × Bool)) (hne : rows ≠ [])
    (hsort : rows.Pairwise (fun a b : ℚ × Bool => a.1 < b.1)) :
    (eval_series_F rows =
      if suffixStart rows + 1 < rows.length
      then (timeAt rows (suffixStart rows), true)
      else (lastTime rows, false)) ∧
    ((eval_series_F rows).2 = true ↔
      ∃ i, i + 1 < rows.length ∧ (rows.drop i).all (·.2) = true) ∧
    (rows.drop (suffixStart rows)).all (·.2) = true ∧
    (∀ i, (rows.drop i).all (·.2) = true → suffixStart rows ≤ i) := by
  have hmain := eval_series_F_eq rows hne hsort
  refine ⟨hmain, ?_, suffixStart_all rows, fun i h => suffixStart_min rows i h⟩
  rw [hmain]
  by_cases hc : suffixStart rows + 1 < rows.length
  · rw [if_pos hc]
    exact ⟨fun _ => ⟨suffixStart rows, hc, suffixStart_all rows⟩, fun _ => rfl⟩
  · rw [if_neg hc]
    constructor
    · intro h
      simp at h
    · rintro ⟨i, hilen, hall⟩
      have := suffixStart_min rows i hall
      omega

/-- Witness for C1 (amended) at the series `[(0, false), (1, true), (2, true)]`. -/
theorem eval_series_F_stabilization_witness :
    ([((0 : ℚ), false), (1, true), (2, true)] : List (ℚ × Bool)) ≠ [] ∧
    ((eval_series_F [((0 : ℚ), false), (1, true), (2, true)] =
      if suffixStart [((0 : ℚ), false), (1, true), (2, true)] + 1 <
          ([((0 : ℚ), false), (1, true), (2, true)] : List (ℚ × Bool)).length
      then (timeAt [((0 : ℚ), false), (1, true), (2, true)]
              (suffixStart [((0 : ℚ), false), (1, true), (2, true)]), true)
      else (lastTime [((0 : ℚ), false), (1, true), (2, true)], false)) ∧
    ((eval_series_F [((0 : ℚ), false), (1, true), (2, true)]).2 = true ↔
      ∃ i, i + 1 < ([((0 : ℚ), false), (1, true), (2, true)] : List (ℚ × Bool)).length ∧
        (([((0 : ℚ), false), (1, true), (2, true)] : List (ℚ × Bool)).drop i).all (·.2) = true) ∧
    (([((0 : ℚ), false), (1, true), (2, true)] : List (ℚ × Bool)).drop
        (suffixStart [((0 : ℚ), false), (1, true), (2, true)])).all (·.2) = true ∧
    (∀ i, (([((0 : ℚ), false), (1, true), (2, true)] : List (ℚ × Bool)).drop i).all (·.2) = true →
      suffixStart [((0 : ℚ), false), (1, true), (2, true)] ≤ i)) :=
  ⟨by decide, eval_series_F_stabilization [((0 : ℚ), false), (1, true), (2, true)]
    (by decide) (by decide)⟩

/-- Sample point `i` of an interpolation table (default `(0, 0)` out of range). -/
def ptAt (l : List (ℚ × ℚ)) (i : ℕ) : ℚ × ℚ := l.getD i (0, 0)

theorem ptAt_mem (l : List (ℚ × ℚ)) (i : ℕ) (h : i < l.length) : ptAt l i ∈ l := by
  unfold ptAt
  rw [List.getD_eq_getElem _ _ h]
  exact List.getElem_mem h

theorem ptAt_head_le (m : List (ℚ × ℚ)) (x : ℚ × ℚ) (j : ℕ)
    (hj : j < (x :: m).length)
    (hsort : (x :: m).Pairwise (fun a b : ℚ × ℚ => a.1 < b.1)) :
    x.1 ≤ (ptAt (x :: m) j).1 := by
  match j with
  | 0 => exact le_refl _
  | k + 1 =>
    have hk : k < m.length := by simpa using hj
    have hmem : ptAt m k ∈ m := ptAt_mem m k hk
    have := (List.pairwise_cons.mp hsort).1 _ hmem
    exact le_of_lt this

/-- `np.interp` on a strictly increasing table returns the linear blend of the
two samples bracketing `t0`. -/
theorem np_interp_bracket (l : List (ℚ × ℚ)) (t0 : ℚ) (i : ℕ)
    (hsort : l.Pairwise (fun a b : ℚ × ℚ => a.1 < b.1))
    (hi1 : i + 1 < l.length)
    (hlo : (ptAt l i).1 ≤ t0) (hhi : t0 ≤ (ptAt l (i + 1)).1) :
    np_interp t0 l =
      (ptAt l i).2 + ((ptAt l (i + 1)).2 - (ptAt l i).2) *
        (t0 - (ptAt l i).1) / ((ptAt l (i + 1)).1 - (ptAt l i).1) := by
  induction l generalizing i with
  | nil => simp at hi1
  | cons p1 tl ih =>
    obtain ⟨x1, y1⟩ := p1
    cases tl with
    | nil => simp at hi1
    | cons p2 rest =>
      obtain ⟨x2, y2⟩ := p2
      have hx12 : x1 < x2 :=
        (List.pairwise_cons.mp hsort).1 (x2, y2) (by simp)
      have hsort' := (List.pairwise_cons.mp hsort).2
      match i with
      | 0 =>
        have hlo0 : x1 ≤ t0 := hlo
        have hhi0 : t0 ≤ x2 := hhi
        show (if t0 ≤ x1 then y1
              else if t0 ≤ x2 then y1 + (y2 - y1) * (t0 - x1) / (x2 - x1)
              else np_interp t0 ((x2, y2) :: rest)) = _
        by_cases h1 : t0 ≤ x1
        · have ht : t0 = x1 := le_antisymm h1 hlo0
          rw [if_pos h1]
          simp only [ptAt, List.getD_cons_succ, List.getD_cons_zero]
          rw [ht]
          simp
        · rw [if_neg h1, if_pos hhi0]
          rfl
      | k + 1 =>
        have hk1 : k + 1 < ((x2, y2) :: rest).length := by simpa using hi1
        have hlo' : (ptAt ((x2, y2) :: rest) k).1 ≤ t0 := hlo
        have hhi' : t0 ≤ (ptAt ((x2, y2) :: rest) (k + 1)).1 := hhi
        have hx2le : x2 ≤ (ptAt ((x2, y2) :: rest) k).1 :=
          ptAt_head_le rest (x2, y2) k (by omega) hsort'
        have h1 : ¬t0 ≤ x1 := not_le.mpr (lt_of_lt_of_le hx12 (le_trans hx2le hlo'))
        show (if t0 ≤ x1 then y1
              else if t0 ≤ x2 then y1 + (y2 - y1) * (t0 - x1) / (x2 - x1)
              else np_interp t0 ((x2, y2) :: rest)) = _
        rw [if_neg h1]
        by_cases h2 : t0 ≤ x2
        · -- only possible when the bracket degenerates to `t0 = x2` at `k = 0`
          have ht2 : t0 = x2 := le_antisymm h2 (le_trans hx2le hlo')
          match k with
          | 0 =>
            rw [if_pos h2]
            have hne12 : x2 - x1 ≠ 0 := sub_ne_zero.mpr (ne_of_gt hx12)
            simp only [ptAt, List.getD_cons_succ, List.getD_cons_zero]
            rw [ht2, mul_div_assoc, div_self hne12, mul_one]
            simp
          | k' + 1 =>
            exfalso
            have hk' : k' < rest.length := by simp at hk1; omega
            have hmem : ptAt rest k' ∈ rest := ptAt_mem rest k' hk'
            have hx2lt : x2 < (ptAt rest k').1 :=
              (List.pairwise_cons.mp hsort').1 _ hmem
            have : x2 < t0 := lt_of_lt_of_le hx2lt hlo'
            exact absurd h2 (not_le.mpr this)
        · rw [if_neg h2]
          exact ih k hsort' hk1 hlo' hhi'

/-- Time of row `i` of a `(time, PVal)` series. -/
def rowT (rows : List (ℚ × PVal)) (i : ℕ) : ℚ := (rows.getD i (0, PVal.num 0)).1

/-- Numeric value of row `i` of a `(time, PVal)` series. -/
def rowV (rows : List (ℚ × PVal)) (i : ℕ) : ℚ := (rows.getD i (0, PVal.num 0)).2.toFloat

/-- C9: for every compiled assertion with temporal quantifier `Time` and time
argument `t0` within the series' span, `eval_series` returns `(t0, v)` where
`v` is the linear interpolation of the predicate's numeric value between the
two samples bracketing `t0`, returned as a (numeric) value, not as a boolean. -/
theorem eval_series_T_interpolates (rows : List (ℚ × PVal)) (t0 : ℚ) (i : ℕ)
    (hsort : rows.Pairwise (fun a b : ℚ × PVal => a.1 < b.1))
    (hnum : ∀ p ∈ rows, ∃ q, p.2 = PVal.num q)
    (hne : rows ≠ [])
    (hi1 : i + 1 < rows.length)
    (hlo : rowT rows i ≤ t0) (hhi : t0 ≤ rowT rows (i + 1)) :
    eval_series_T t0 rows =
      (t0, PVal.num (rowV rows i + (rowV rows (i + 1) - rowV rows i) *
        (t0 - rowT rows i) / (rowT rows (i + 1) - rowT rows i))) := by
  have hpt : ∀ j, j < rows.length →
      ptAt (rows.map fun r => (r.1, r.2.toFloat)) j = (rowT rows j, rowV rows j) := by
    intro j hj
    unfold ptAt rowT rowV
    rw [List.getD_eq_getElem _ _ (by simpa using hj),
      List.getD_eq_getElem _ _ hj]
    simp [List.getElem_map]
  have hsl : (rows.map fun r => (r.1, r.2.toFloat)).Pairwise
      (fun a b : ℚ × ℚ => a.1 < b.1) := by
    rw [List.pairwise_map]
    exact hsort
  have hbr := np_interp_bracket (rows.map fun r => (r.1, r.2.toFloat)) t0 i hsl
    (by simpa using hi1)
    (by rw [hpt i (by omega)]; exact hlo)
    (by rw [hpt (i + 1) hi1]; exact hhi)
  have hall : rows.all (fun r => r.2.isBool) = false := by
    rcases rows with _ | ⟨p, tl⟩
    · exact absurd rfl hne
    · obtain ⟨q, hq⟩ := hnum p (by simp)
      exact List.all_eq_false.mpr ⟨p, by simp, by simp [hq, PVal.isBool]⟩
  unfold eval_series_T
  simp only [hall, Bool.false_eq_true, if_false]
  rw [hbr, hpt i (by omega), hpt (i + 1) hi1]

/-- Witness for C9: interpolating at `t0 = 9.85` between the samples
`(9.8, 5)` and `(9.9, 7)`. -/
theorem eval_series_T_interpolates_witness :
    ([((49 : ℚ)/5, PVal.num 5), (99/10, PVal.num 7)] : List (ℚ × PVal)).Pairwise
      (fun a b : ℚ × PVal => a.1 < b.1) ∧
    eval_series_T (197/20) [((49 : ℚ)/5, PVal.num 5), (99/10, PVal.num 7)] =
      ((197 : ℚ)/20,
        PVal.num (rowV [((49 : ℚ)/5, PVal.num 5), (99/10, PVal.num 7)] 0 +
          (rowV [((49 : ℚ)/5, PVal.num 5), (99/10, PVal.num 7)] 1 -
            rowV [((49 : ℚ)/5, PVal.num 5), (99/10, PVal.num 7)] 0) *
          ((197 : ℚ)/20 - rowT [((49 : ℚ)/5, PVal.num 5), (99/10, PVal.num 7)] 0) /
          (rowT [((49 : ℚ)/5, PVal.num 5), (99/10, PVal.num 7)] 1 -
            rowT [((49 : ℚ)/5, PVal.num 5), (99/10, PVal.num 7)] 0))) :=
  ⟨by norm_num [List.pairwise_cons],
    eval_series_T_interpolates [((49 : ℚ)/5, PVal.num 5), (99/10, PVal.num 7)]
      (197/20) 0 (by norm_num [List.pairwise_cons])
      (by intro p hp; rcases List.mem_cons.mp hp with rfl | hp' <;> simp_all)
      (by simp) (by simp)
      (by norm_num [rowT, List.getD_cons_zero])
      (by norm_num [rowT, List.getD_cons_zero, List.getD_cons_succ])⟩

/-! ## SystemInterface legality rules (system_interface.py) -/

/-- FMI causality (`local` is spelled `loc` since `local` is reserved in Lean). -/
inductive Causality where
  | parameter
  | calculated_parameter
  | input
  | output
  | loc
  | independent
deriving DecidableEq, Repr

/-- FMI variability. -/
inductive Variability where
  | constant
  | fixed
  | tunable
  | discrete
  | continuous
deriving DecidableEq, Repr

/-- The FMI2 "initial" category of a variable: the strings `"exact"`,
`"approx"`, `"calculated"`, or the raw integer code that
`SystemInterface.default_initial` returns for the remaining table entries. -/
inductive InitialSpec where
  | exact
  | approx
  | calculated
  | icode (z : ℤ)
deriving DecidableEq, Repr

/-- The 5×6 integer table of `SystemInterface.default_initial`
(rows = variability, columns = causality). -/
def initCode (causality : Causality) (variability : Variability) : ℤ :=
  match variability, causality with
  | .constant, .parameter => -1
  | .constant, .calculated_parameter => -1
  | .constant, .input => -1
  | .constant, .output => 7
  | .constant, .loc => 10
  | .constant, .independent => -3
  | .fixed, .parameter => 1
  | .fixed, .calculated_parameter => 3
  | .fixed, .input => -4
  | .fixed, .output => -5
  | .fixed, .loc => 11
  | .fixed, .independent => -3
  | .tunable, .parameter => 2
  | .tunable, .calculated_parameter => 4
  | .tunable, .input => -4
  | .tunable, .output => -5
  | .tunable, .loc => 12
  | .tunable, .independent => -3
  | .discrete, .parameter => -2
  | .discrete, .calculated_parameter => -2
  | .discrete, .input => 5
  | .discrete, .output => 8
  | .discrete, .loc => 13
  | .discrete, .independent => -3
  | .continuous, .parameter => -2
  | .continuous, .calculated_parameter => -2
  | .continuous, .input => 6
  | .continuous, .output => 9
  | .continuous, .loc => 14
  | .continuous, .independent => 15

/-- `SystemInterface.default_initial` with `only_default=True`: the single
default initial category, or the raw integer code. -/
def default_initial (causality : Causality) (variability : Variability) : InitialSpec :=
  let init := initCode causality variability
  if init < 0 then .icode init
  else if init = 1 ∨ init = 2 ∨ init = 7 ∨ init = 10 then .exact
  else if init = 3 ∨ init = 4 ∨ init = 11 ∨ init = 12 then .calculated
  else if init = 8 ∨ init = 9 ∨ init = 13 ∨ init = 14 then .calculated
  else .icode init

/-- The single-variable path of `SystemInterface.allowed_action` for a `set`
action: the three `_check` calls guarded by the sign of `time`, returning the
verdict together with the message stored in `self.message` on failure
(empty on success, where the message is untouched). -/
def allowed_set (name : String) (causality : Causality) (variability : Variability)
    (initial : InitialSpec) (time : ℚ) : Bool × String :=
  if time < 0 then
    if variability ≠ Variability.constant ∧
        (initial = InitialSpec.exact ∨ initial = InitialSpec.approx)
    then (true, "")
    else (false, "Change of " ++ name ++ " before EnterInitialization")
  else if time = 0 then
    if variability ≠ Variability.constant ∧
        (initial = InitialSpec.exact ∨ causality = Causality.input)
    then (true, "")
    else (false, "Change of " ++ name ++ " during Initialization")
  else
    if (causality = Causality.parameter ∧ variability = Variability.tunable) ∨
        causality = Causality.input
    then (true, "")
    else (false, "Change of " ++ name ++ " at communication point")

/-- C6 counterexample: a `fixed` `parameter` has default initial `exact`, so
`allowed_action('set', ..., time=0)` returns true although its causality is
not `input` — the claim's "for time == 0 it additionally requires
causality == input" fails. -/
theorem allowed_set_time0_counterexample :
    default_initial Causality.parameter Variability.fixed = InitialSpec.exact ∧
    (allowed_set "x" Causality.parameter Variability.fixed
      (default_initial Causality.parameter Variability.fixed) 0).1 = true ∧
    Causality.parameter ≠ Causality.input := by
  decide

/-- C6 (amended): for every variable with non-constant variability,
`allowed_action('set', ...)` returns true for `time < 0` iff the initial
category is `exact` or `approx`; for `time == 0` iff the initial category is
`exact` **or** the causality is `input`; for `time > 0` iff the causality is
`parameter` with variability `tunable`, or the causality is `input`; and on
every false return the interface's message names the violated rule. -/
theorem allowed_set_rules (name : String) (causality : Causality)
    (variability : Variability) (initial : InitialSpec) (time : ℚ)
    (hv : variability ≠ Variability.constant) :
    (time < 0 →
      (((allowed_set name causality variability initial time).1 = true ↔
        (initial = InitialSpec.exact ∨ initial = InitialSpec.approx)) ∧
      ((allowed_set name causality variability initial time).1 = false →
        (allowed_set name causality variability initial time).2 =
          "Change of " ++ name ++ " before EnterInitialization"))) ∧
    (time = 0 →
      (((allowed_set name causality variability initial time).1 = true ↔
        (initial = InitialSpec.exact ∨ causality = Causality.input)) ∧
      ((allowed_set name causality variability initial time).1 = false →
        (allowed_set name causality variability initial time).2 =
          "Change of " ++ name ++ " during Initialization"))) ∧
    (0 < time →
      (((allowed_set name causality variability initial time).1 = true ↔
        ((causality = Causality.parameter ∧ variability = Variability.tunable) ∨
          causality = Causality.input)) ∧
      ((allowed_set name causality variability initial time).1 = false →
        (allowed_set name causality variability initial time).2 =
          "Change of " ++ name ++ " at communication point"))) := by
  refine ⟨fun ht => ?_, fun ht => ?_, fun ht => ?_⟩
  · simp only [allowed_set, if_pos ht]
    by_cases hcond : initial = InitialSpec.exact ∨ initial = InitialSpec.approx
    · simp [hcond, hv]
    · simp [hcond, hv]
  · subst ht
    simp only [allowed_set, lt_irrefl, if_false, if_pos rfl]
    by_cases hcond : initial = InitialSpec.exact ∨ causality = Causality.input
    · simp [hcond, hv]
    · simp [hcond, hv]
  · have h1 : ¬time < 0 := not_lt.mpr (le_of_lt ht)
    have h2 : time ≠ 0 := ne_of_gt ht
    simp only [allowed_set, if_neg h1, if_neg h2]
    by_cases hcond : (causality = Causality.parameter ∧
        variability = Variability.tunable) ∨ causality = Causality.input
    · simp [hcond]
    · simp [hcond]

/-- Witness for C6 (amended) at a concrete tunable parameter and times
`-1`, `0`, `1`. -/
theorem allowed_set_rules_witness :
    Variability.tunable ≠ Variability.constant ∧
    (allowed_set "x" Causality.parameter Variability.tunable
      InitialSpec.exact 1).1 = true ∧
    (allowed_set "y" Causality.output Variability.continuous
      InitialSpec.calculated (-1)).1 = false ∧
    (allowed_set "y" Causality.output Variability.continuous
      InitialSpec.calculated (-1)).2 =
        "Change of " ++ "y" ++ " before EnterInitialization" := by
  refine ⟨by decide, ?_, ?_, ?_⟩
  · exact ((allowed_set_rules "x" Causality.parameter Variability.tunable
      InitialSpec.exact 1 (by decide)).2.2 (by norm_num)).1.mpr (Or.inl ⟨rfl, rfl⟩)
  · by_contra h
    have hb : (allowed_set "y" Causality.output Variability.continuous
        InitialSpec.calculated (-1)).1 = true := by
      cases hx : (allowed_set "y" Causality.output Variability.continuous
          InitialSpec.calculated (-1)).1
      · exact absurd hx h
      · rfl
    have := ((allowed_set_rules "y" Causality.output Variability.continuous
      InitialSpec.calculated (-1) (by decide)).1 (by norm_num)).1.mp hb
    rcases this with h' | h' <;> exact absurd h' (by decide)
  · exact ((allowed_set_rules "y" Causality.output Variability.continuous
      InitialSpec.calculated (-1) (by decide)).1 (by norm_num)).2 (by decide)

/-! ## String utilities of the spec parsers (case.py)

Python strings are modelled as `List Char`; `str.partition`, `str.split`,
`str.strip` and the numeric constructors `int(...)`/`float(...)` are embedded
below.  `pyInt?`/`pyFloat?` model `int`/`float` on the plain decimal grammar
(optional surrounding whitespace, optional sign, digits, for floats one
optional point and one optional exponent); the exotic inputs Python also
accepts (`inf`, `nan`, underscores) are outside every claim. -/

/-- `str.partition(c)` restricted to the two used components: the text before
the first occurrence of `c` and the text after it (empty when `c` is absent,
exactly as in Python where `post` is then `''`). -/
def partitionChar (c : Char) : List Char → List Char × List Char
  | [] => ([], [])
  | x :: rest =>
    if x = c then ([], rest)
    else
      let (p, a) := partitionChar c rest
      (x :: p, a)

/-- `str.split(c)` for a one-character separator. -/
def pySplit (c : Char) : List Char → List (List Char)
  | [] => [[]]
  | x :: rest =>
    if x = c then [] :: pySplit c rest
    else
      match pySplit c rest with
      | [] => [[x]]
      | h :: t => (x :: h) :: t

/-- `str.split("..")`: split on the two-character separator, left-greedy. -/
def splitOnDots : List Char → List (List Char)
  | [] => [[]]
  | '.' :: '.' :: rest => [] :: splitOnDots rest
  | x :: rest =>
    match splitOnDots rest with
    | [] => [[x]]
    | h :: t => (x :: h) :: t

/-- `str.strip()` (whitespace on both ends). -/
def stripWs (l : List Char) : List Char :=
  ((l.dropWhile Char.isWhitespace).reverse.dropWhile Char.isWhitespace).reverse

/-- `str.rstrip(c)` for a one-character strip set. -/
def rstripChar (c : Char) (l : List Char) : List Char :=
  (l.reverse.dropWhile (· = c)).reverse

/-- `str.lstrip(c)` for a one-character strip set. -/
def lstripChar (c : Char) (l : List Char) : List Char :=
  l.dropWhile (· = c)

/-- Decimal digits to a natural number. -/
def digitsToNat (l : List Char) : ℕ :=
  l.foldl (fun acc c => acc * 10 + (c.toNat - 48)) 0

/-- An optional sign followed by a non-empty digit string. -/
def parseSignedDigits (l : List Char) : Option ℤ :=
  if l.head? = some '+' then
    if l.tail ≠ [] ∧ l.tail.all Char.isDigit then some (digitsToNat l.tail) else none
  else if l.head? = some '-' then
    if l.tail ≠ [] ∧ l.tail.all Char.isDigit then some (-(digitsToNat l.tail : ℤ)) else none
  else if l ≠ [] ∧ l.all Char.isDigit then some (digitsToNat l) else none

/-- `int(s)`: optional surrounding whitespace, optional sign, digits. -/
def pyInt? (s : List Char) : Option ℤ :=
  parseSignedDigits (stripWs s)

/-- The mantissa of a float literal: digits with at most one point. -/
def parseMantissa (l : List Char) : Option ℚ :=
  if l.elem '.' then
    let (ip, fp) := partitionChar '.' l
    if ip.all Char.isDigit ∧ fp.all Char.isDigit ∧ (ip ≠ [] ∨ fp ≠ [])
    then some ((digitsToNat (ip ++ fp) : ℚ) / (10 ^ fp.length))
    else none
  else if l ≠ [] ∧ l.all Char.isDigit then some (digitsToNat l : ℚ)
  else none

/-- `float(s)` on the decimal grammar. -/
def pyFloat? (s : List Char) : Option ℚ :=
  let t := stripWs s
  let sign : ℚ := if t.head? = some '-' then -1 else 1
  let t1 : List Char :=
    if t.head? = some '+' ∨ t.head? = some '-' then t.tail else t
  let low := t1.map fun c => if c = 'E' then 'e' else c
  if low.elem 'e' then
    let (m, e) := partitionChar 'e' low
    match parseMantissa m, parseSignedDigits e with
    | some q, some z => some (sign * q * (10 : ℚ) ^ z)
    | _, _ => none
  else
    (parseMantissa low).map (sign * ·)

theorem partitionChar_not_mem (c : Char) (l : List Char) (h : c ∉ l) :
    partitionChar c l = (l, []) := by
  induction l with
  | nil => rfl
  | cons x rest ih =>
    have hx : ¬x = c := fun e => h (by simp [e])
    simp only [partitionChar, if_neg hx, ih fun hm => h (by simp [hm])]

theorem partitionChar_append (c : Char) (a b : List Char) (h : c ∉ a) :
    partitionChar c (a ++ c :: b) = (a, b) := by
  induction a with
  | nil => simp [partitionChar]
  | cons x rest ih =>
    have hx : ¬x = c := fun e => h (by simp [e])
    have ih' := ih fun hm => h (by simp [hm])
    simp only [List.cons_append, partitionChar, if_neg hx, List.append_eq, ih']

theorem dropWhile_eq_self_of_not (p : Char → Bool) (l : List Char)
    (h : ∀ x ∈ l, p x = false) : l.dropWhile p = l := by
  cases l with
  | nil => rfl
  | cons x rest => simp [List.dropWhile_cons, h x (by simp)]

theorem stripWs_eq_self (l : List Char) (h : ∀ x ∈ l, x.isWhitespace = false) :
    stripWs l = l := by
  unfold stripWs
  rw [dropWhile_eq_self_of_not _ _ h,
    dropWhile_eq_self_of_not _ _ fun x hx => h x (by simpa using hx),
    List.reverse_reverse]

theorem rstripChar_eq_self (c : Char) (l : List Char) (h : c ∉ l) :
    rstripChar c l = l := by
  unfold rstripChar
  rw [dropWhile_eq_self_of_not _ l.reverse fun x hx => ?_, List.reverse_reverse]
  have hm : x ∈ l := by simpa using hx
  have hne : x ≠ c := fun e => h (e ▸ hm)
  simpa using hne

theorem rstripChar_concat (c : Char) (l : List Char) (h : c ∉ l) :
    rstripChar c (l ++ [c]) = l := by
  unfold rstripChar
  have hrev : (l ++ [c]).reverse = c :: l.reverse := by simp
  rw [hrev, List.dropWhile_cons, if_pos (by simp)]
  rw [dropWhile_eq_self_of_not _ l.reverse fun x hx => ?_, List.reverse_reverse]
  have hm : x ∈ l := by simpa using hx
  have hne : x ≠ c := fun e => h (e ▸ hm)
  simpa using hne

theorem pySplit_not_mem (c : Char) (l : List Char) (h : c ∉ l) :
    pySplit c l = [l] := by
  induction l with
  | nil => rfl
  | cons x rest ih =>
    have hx : ¬x = c := fun e => h (by simp [e])
    have ih' := ih fun hm => h (by simp [hm])
    simp only [pySplit, if_neg hx, ih']

theorem pySplit_append (c : Char) (a b : List Char) (h : c ∉ a) :
    pySplit c (a ++ c :: b) = a :: pySplit c b := by
  induction a with
  | nil => simp [pySplit]
  | cons x rest ih =>
    have hx : ¬x = c := fun e => h (by simp [e])
    have ih' := ih fun hm => h (by simp [hm])
    simp only [List.cons_append, pySplit, if_neg hx, List.append_eq, ih']

theorem splitOnDots_dots (rest : List Char) :
    splitOnDots ('.' :: '.' :: rest) = [] :: splitOnDots rest := rfl

theorem splitOnDots_cons (x : Char) (rest : List Char)
    (h : x = '.' → rest.head? ≠ some '.') :
    splitOnDots (x :: rest) =
      match splitOnDots rest with
      | [] => [[x]]
      | hd :: t => (x :: hd) :: t := by
  rw [splitOnDots.eq_def]
  split
  · rename_i heq
    exact absurd heq (by simp)
  · rename_i rest2 heq
    obtain ⟨hx, h2⟩ := List.cons.inj heq
    subst hx
    exact absurd (by rw [h2]; rfl : rest.head? = some '.') (h rfl)
  · rename_i y ys hne1 heq
    obtain ⟨rfl, rfl⟩ := List.cons.inj heq
    rfl

theorem splitOnDots_no_dot (l : List Char) (h : '.' ∉ l) :
    splitOnDots l = [l] := by
  induction l with
  | nil => rfl
  | cons x rest ih =>
    have hx : x ≠ '.' := fun e => h (by simp [e])
    rw [splitOnDots_cons x rest fun e => absurd e hx,
      ih fun hm => h (by simp [hm])]

theorem splitOnDots_append2 (a b : List Char) (ha : '.' ∉ a) (hb : '.' ∉ b) :
    splitOnDots (a ++ '.' :: '.' :: b) = [a, b] := by
  induction a with
  | nil => rw [List.nil_append, splitOnDots_dots, splitOnDots_no_dot b hb]
  | cons x rest ih =>
    have hx : x ≠ '.' := fun e => ha (by simp [e])
    rw [List.cons_append, splitOnDots_cons x _ fun e => absurd e hx,
      ih fun hm => ha (by simp [hm])]

theorem splitOnDots_append3 (a b : List Char) (ha : '.' ∉ a) (hb : '.' ∉ b) :
    splitOnDots (a ++ '.' :: '.' :: '.' :: b) = [a, '.' :: b] := by
  induction a with
  | nil =>
    rw [List.nil_append, splitOnDots_dots,
      splitOnDots_cons '.' b fun _ hh => ?_, splitOnDots_no_dot b hb]
    cases b with
    | nil => simp at hh
    | cons y ys =>
      have : y ≠ '.' := fun e => hb (by simp [e])
      simp at hh
      exact absurd hh this
  | cons x rest ih =>
    have hx : x ≠ '.' := fun e => ha (by simp [e])
    rw [List.cons_append, splitOnDots_cons x _ fun e => absurd e hx,
      ih fun hm => ha (by simp [hm])]

theorem isWhitespace_eq_false_of_isDigit (c : Char) (h : c.isDigit = true) :
    c.isWhitespace = false := by
  cases hw : c.isWhitespace with
  | false => rfl
  | true =>
    exfalso
    have hw' := hw
    simp [Char.isWhitespace] at hw'
    rcases hw' with ((rfl | rfl) | rfl) | rfl <;> exact absurd h (by decide)

/-- A decimal digit differs from any fixed non-digit character. -/
theorem digit_ne (c k : Char) (h : c.isDigit = true) (hk : k.isDigit = false) :
    c ≠ k := by
  intro e
  subst e
  rw [h] at hk
  cases hk

theorem pyInt?_digits (s : List Char) (hne : s ≠ []) (hd : s.all Char.isDigit = true) :
    pyInt? s = some ((digitsToNat s : ℤ)) := by
  have hall : ∀ x ∈ s, x.isDigit = true := List.all_eq_true.mp hd
  unfold pyInt?
  rw [stripWs_eq_self s fun x hx => isWhitespace_eq_false_of_isDigit x (hall x hx)]
  unfold parseSignedDigits
  cases s with
  | nil => exact absurd rfl hne
  | cons c rest =>
    have hc := hall c (by simp)
    have h1 : ¬(c :: rest).head? = some '+' := by
      simpa using digit_ne c '+' hc (by decide)
    have h2 : ¬(c :: rest).head? = some '-' := by
      simpa using digit_ne c '-' hc (by decide)
    rw [if_neg h1, if_neg h2, if_pos ⟨List.cons_ne_nil c rest, hd⟩]

/-! ## Assertion key parsing and registration (case.py: `_disect_at_time_tl`,
`read_assertion`; assertion.py: `Assertion.temporal`) -/

/-- `Temporal[ch]` for a single character: only the member names `A`, `F`,
`T` are one character long. -/
def temporalOfChar (c : Char) : Option Temporal :=
  if c = 'A' then some Temporal.A
  else if c = 'F' then some Temporal.F
  else if c = 'T' then some Temporal.T
  else none

/-- The reverse scan `for i in range(len(at)-1, -1, -1)` of
`_disect_at_time_tl.time_spec`: the input is the reversed tail of the spec,
`acc` collects the characters after the current position in original order. -/
def scanTemporalGo : List Char → List Char → Option (Temporal × List Char)
  | [], _ => none
  | c :: rs, acc =>
    match temporalOfChar c with
    | some ty => some (ty, acc)
    | none => scanTemporalGo rs (c :: acc)

/-- Last position whose character names a `Temporal` member, together with
the remaining text after it. -/
def scanTemporal (l : List Char) : Option (Temporal × List Char) :=
  scanTemporalGo l.reverse []

/-- A temporal argument: a string or a float (`tuple[str | float, ...]`). -/
inductive TArg where
  | s (v : List Char)
  | f (x : ℚ)
deriving DecidableEq, Repr

/-- `Case._disect_at_time_tl`: split the assertion key on the first `@`; an
empty tail means `Temporal.ALWAYS` with no arguments; otherwise the tail is
a plain number (`T` with that time), or ends in a temporal letter followed by
an optional argument.  `None` models the `assert`/`raise` failures. -/
def disect_at_time_tl (txt : List Char) : Option (List Char × Temporal × List TArg) :=
  let pr := partitionChar '@' txt
  if pr.1 = [] then none
  else if pr.2 = [] then some (pr.1, Temporal.ALWAYS, [])
  else
    match pyFloat? pr.2 with
    | some x => some (pr.1, Temporal.T, [TArg.f x])
    | none =>
      match scanTemporal pr.2 with
      | none => none
      | some (ty, rest) =>
        if stripWs rest = [] then some (pr.1, ty, [])
        else if ty = Temporal.T then
          match pyFloat? (stripWs rest) with
          | some x => some (pr.1, ty, [TArg.f x])
          | none => none
        else some (pr.1, ty, [TArg.s (stripWs rest)])

/-- Python `dict.update({k: v})`: replace in place, else append. -/
def updateAssoc {α : Type} : List (List Char × α) → List Char → α → List (List Char × α)
  | [], k, v => [(k, v)]
  | (k', v') :: rest, k, v =>
    if k' = k then (k, v) :: rest else (k', v') :: updateAssoc rest k v

/-- Python `dict[k]` as an option. -/
def lookupAssoc {α : Type} : List (List Char × α) → List Char → Option α
  | [], _ => none
  | (k', v') :: rest, k => if k' = k then some v' else lookupAssoc rest k

theorem lookup_updateAssoc {α : Type} (m : List (List Char × α)) (k : List Char)
    (v : α) : lookupAssoc (updateAssoc m k v) k = some v := by
  induction m with
  | nil => simp [updateAssoc, lookupAssoc]
  | cons p rest ih =>
    obtain ⟨k', v'⟩ := p
    by_cases hk : k' = k
    · simp [updateAssoc, hk, lookupAssoc]
    · simp [updateAssoc, hk, lookupAssoc, ih]

/-- `Case.read_assertion`: disect the key, destructure
`expr, descr = expr_descr` (two elements required), then register the
temporal type and arguments under the stripped key via
`Assertion.temporal(key, typ, args)` (a `dict.update`).  Only the temporal
registry is modelled; the expression compilation is external `ast`/`exec`
machinery. -/
def read_assertion (tm : List (List Char × Temporal × List TArg)) (key : List Char)
    (exprDescr : List (List Char)) :
    Option (List Char × List (List Char × Temporal × List TArg)) :=
  match disect_at_time_tl key with
  | none => none
  | some (k, ty, args) =>
    match exprDescr with
    | [_expr, _descr] => some (k, updateAssoc tm k (ty, args))
    | _ => none

/-- C10: for every assertion key containing no `@`, `read_assertion`
registers the assertion under the whole key with temporal quantifier
`ALWAYS` (= `A`) and an empty temporal-argument tuple. -/
theorem read_assertion_no_at_always (tm : List (List Char × Temporal × List TArg))
    (key e d : List Char) (hne : key ≠ []) (hno : '@' ∉ key) :
    read_assertion tm key [e, d] =
      some (key, updateAssoc tm key (Temporal.ALWAYS, [])) ∧
    lookupAssoc (updateAssoc tm key (Temporal.ALWAYS, ([] : List TArg))) key =
      some (Temporal.ALWAYS, []) ∧
    Temporal.ALWAYS = Temporal.A := by
  have hpart := partitionChar_not_mem '@' key hno
  refine ⟨?_, lookup_updateAssoc tm key _, rfl⟩
  unfold read_assertion disect_at_time_tl
  rw [hpart]
  simp [hne]

/-- Witness for C10 at the key `"1"`. -/
theorem read_assertion_no_at_always_witness :
    (['1'] : List Char) ≠ [] ∧
    (read_assertion [] ['1'] [['t'], ['d']] =
      some (['1'], updateAssoc [] ['1'] (Temporal.ALWAYS, [])) ∧
    lookupAssoc (updateAssoc [] ['1'] (Temporal.ALWAYS, ([] : List TArg))) ['1'] =
      some (Temporal.ALWAYS, []) ∧
    Temporal.ALWAYS = Temporal.A) :=
  ⟨by decide, read_assertion_no_at_always [] ['1'] ['t'] ['d'] (by decide) (by decide)⟩

/-! ## Action spec parsing (case.py: `_disect_at_time_spec`) -/

/-- A dynamic Python value appearing as a spec value. -/
inductive SVal where
  | vstr (s : List Char)
  | vnum (x : ℚ)
  | vbool (b : Bool)
  | vlist (l : List ℚ)
deriving DecidableEq, Repr

/-- `Case._num_elements`: `None` → 0, sequences → their length, strings →
`int(len > 0)`, anything else → 1. -/
def num_elements : Option SVal → ℕ
  | none => 0
  | some (.vlist l) => l.length
  | some (.vstr s) => if s.length > 0 then 1 else 0
  | some (.vnum _) => 1
  | some (.vbool _) => 1

/-- The action type returned by `_disect_at_time_spec`. -/
inductive ActType where
  | get
  | set
  | step
deriving DecidableEq, Repr

/-- `Case._disect_at_time_spec`: split the key on the first `@`; map the
sentinel values `"result"`/`"res"` to no value; with no `@`, no value is a
`get` at the case's `stopTime` and a non-empty value is a `set` at time 0;
with an `@`, a numeric suffix gives a `set`/`get` (value present or not) at
that time, and a `step` suffix gives a periodic `get` whose time is the
parsed interval, or the marker `-1` (every communication point) when no
interval parses.  `none` models the assertion failures and the `KeyError`
on a missing `stopTime`. -/
def disect_at_time_spec (special : List (List Char × ℚ)) (txt : List Char)
    (value0 : Option SVal) : Option (List Char × ActType × ℚ) :=
  let pr := partitionChar '@' txt
  if pr.1 = [] then none
  else
    let value := if value0 = some (.vstr "result".toList) ∨
        value0 = some (.vstr "res".toList) then none else value0
    if pr.2 = [] then
      if value = none then
        match lookupAssoc special "stopTime".toList with
        | none => none
        | some stp => some (pr.1, ActType.get, stp)
      else if num_elements value ≠ 0 then some (pr.1, ActType.set, 0)
      else none
    else
      match pyFloat? pr.2 with
      | some x =>
        some (pr.1, if num_elements value ≠ 0 then ActType.set else ActType.get, x)
      | none =>
        if pr.2.take 4 = "step".toList then
          match pyFloat? (pr.2.drop 4) with
          | some y => some (pr.1, ActType.step, y)
          | none => some (pr.1, ActType.step, -1)
        else none

/-- C7 counterexample: for a case whose `startTime` is 5, a key with a value
and no `@` suffix parses to a set action at time 0, not at the case's start
time. -/
theorem disect_at_time_spec_counterexample :
    disect_at_time_spec [("startTime".toList, 5), ("stopTime".toList, 10)]
      "v".toList (some (SVal.vnum 1)) = some ("v".toList, ActType.set, 0) ∧
    lookupAssoc [("startTime".toList, 5), ("stopTime".toList, 10)]
      "startTime".toList = some 5 ∧
    (0 : ℚ) ≠ 5 := by
  decide

/-- C7 (amended): for every spec key without an `@` suffix: if its value is
absent or is the sentinel `result`/`res`, parsing yields a get action at the
case's stop time; if a non-empty value is present, parsing yields a set
action at time 0 (the notional initialization time), irrespective of the
case's `startTime`.  For a key whose `@` suffix parses as a number, parsing
yields a set action at that time when a non-empty value is given and a get
action at that time otherwise; a `@step` suffix yields a `step` (continuous)
get with the marker time `-1`, evaluated at every communication point. -/
theorem disect_at_time_spec_rules (special : List (List Char × ℚ))
    (pre : List Char) (stp : ℚ) (hpre : pre ≠ []) (hno : '@' ∉ pre)
    (hstop : lookupAssoc special "stopTime".toList = some stp) :
    (disect_at_time_spec special pre none = some (pre, ActType.get, stp)) ∧
    (disect_at_time_spec special pre (some (SVal.vstr "result".toList)) =
      some (pre, ActType.get, stp)) ∧
    (disect_at_time_spec special pre (some (SVal.vstr "res".toList)) =
      some (pre, ActType.get, stp)) ∧
    (∀ v : Option SVal, v ≠ none → v ≠ some (SVal.vstr "result".toList) →
      v ≠ some (SVal.vstr "res".toList) → num_elements v ≠ 0 →
      disect_at_time_spec special pre v = some (pre, ActType.set, 0)) ∧
    (∀ (t : List Char) (x : ℚ) (v : Option SVal), pyFloat? t = some x →
      t ≠ [] → v ≠ some (SVal.vstr "result".toList) →
      v ≠ some (SVal.vstr "res".toList) → num_elements v ≠ 0 →
      disect_at_time_spec special (pre ++ '@' :: t) v =
        some (pre, ActType.set, x)) ∧
    (∀ (t : List Char) (x : ℚ), pyFloat? t = some x → t ≠ [] →
      disect_at_time_spec special (pre ++ '@' :: t) none =
        some (pre, ActType.get, x)) ∧
    (disect_at_time_spec special (pre ++ '@' :: "step".toList) none =
      some (pre, ActType.step, -1)) := by
  have hp1 := partitionChar_not_mem '@' pre hno
  have hstop' : lookupAssoc special ['s', 't', 'o', 'p', 'T', 'i', 'm', 'e'] =
      some stp := hstop
  refine ⟨?_, ?_, ?_, ?_, ?_, ?_, ?_⟩
  · simp [disect_at_time_spec, hp1, hpre, hstop']
  · simp [disect_at_time_spec, hp1, hpre, hstop']
  · simp [disect_at_time_spec, hp1, hpre, hstop']
  · intro v hv0 hr1 hr2 hnel
    have hsent : ¬(v = some (SVal.vstr "result".toList) ∨
        v = some (SVal.vstr "res".toList)) := by
      rintro (h | h)
      exacts [hr1 h, hr2 h]
    unfold disect_at_time_spec
    rw [hp1]
    dsimp only
    rw [if_neg hpre, if_neg hsent, if_pos rfl, if_neg hv0, if_pos hnel]
  · intro t x v hx ht hr1 hr2 hnel
    have hp2 := partitionChar_append '@' pre t hno
    have hsent : ¬(v = some (SVal.vstr "result".toList) ∨
        v = some (SVal.vstr "res".toList)) := by
      rintro (h | h)
      exacts [hr1 h, hr2 h]
    unfold disect_at_time_spec
    rw [hp2]
    dsimp only
    rw [if_neg hpre, if_neg hsent, if_neg ht, hx]
    dsimp only
    rw [if_pos hnel]
  · intro t x hx ht
    have hp2 := partitionChar_append '@' pre t hno
    unfold disect_at_time_spec
    rw [hp2]
    dsimp only
    rw [if_neg hpre]
    have hsent : ¬((none : Option SVal) = some (SVal.vstr "result".toList) ∨
        (none : Option SVal) = some (SVal.vstr "res".toList)) := by simp
    rw [if_neg hsent, if_neg ht, hx]
    dsimp only
    rw [if_neg (by decide : ¬num_elements (none : Option SVal) ≠ 0)]
  · have hp2 : partitionChar '@' (pre ++ '@' :: "step".toList) =
        (pre, "step".toList) := partitionChar_append '@' pre "step".toList hno
    unfold disect_at_time_spec
    rw [hp2]
    dsimp only
    rw [if_neg hpre]
    have hsent : ¬((none : Option SVal) = some (SVal.vstr "result".toList) ∨
        (none : Option SVal) = some (SVal.vstr "res".toList)) := by simp
    rw [if_neg hsent, if_neg (by decide : ¬("step".toList : List Char) = []),
      (by decide : pyFloat? "step".toList = (none : Option ℚ))]
    dsimp only
    rw [if_pos (by decide : ("step".toList).take 4 = "step".toList),
      (by decide : pyFloat? (("step".toList).drop 4) = (none : Option ℚ))]

/-- Witness for C7 (amended) at the key `v`, stop time 10. -/
theorem disect_at_time_spec_rules_witness :
    (['v'] : List Char) ≠ [] ∧
    ((disect_at_time_spec [("stopTime".toList, 10)] ['v'] none =
      some (['v'], ActType.get, 10)) ∧
    (disect_at_time_spec [("stopTime".toList, 10)] ['v']
      (some (SVal.vstr "result".toList)) = some (['v'], ActType.get, 10)) ∧
    (disect_at_time_spec [("stopTime".toList, 10)] ['v']
      (some (SVal.vstr "res".toList)) = some (['v'], ActType.get, 10)) ∧
    (∀ v : Option SVal, v ≠ none → v ≠ some (SVal.vstr "result".toList) →
      v ≠ some (SVal.vstr "res".toList) → num_elements v ≠ 0 →
      disect_at_time_spec [("stopTime".toList, 10)] ['v'] v =
        some (['v'], ActType.set, 0)) ∧
    (∀ (t : List Char) (x : ℚ) (v : Option SVal), pyFloat? t = some x →
      t ≠ [] → v ≠ some (SVal.vstr "result".toList) →
      v ≠ some (SVal.vstr "res".toList) → num_elements v ≠ 0 →
      disect_at_time_spec [("stopTime".toList, 10)] (['v'] ++ '@' :: t) v =
        some (['v'], ActType.set, x)) ∧
    (∀ (t : List Char) (x : ℚ), pyFloat? t = some x → t ≠ [] →
      disect_at_time_spec [("stopTime".toList, 10)] (['v'] ++ '@' :: t) none =
        some (['v'], ActType.get, x)) ∧
    (disect_at_time_spec [("stopTime".toList, 10)] (['v'] ++ '@' :: "step".toList)
      none = some (['v'], ActType.step, -1))) :=
  ⟨by decide, disect_at_time_spec_rules [("stopTime".toList, 10)] ['v'] 10
    (by decide) (by decide) (by decide)⟩

/-! ## Variable range parsing (case.py: `Cases.disect_variable`) -/

/-- The running range value of the `disect_variable` loop: Python keeps
either a growing `list[int]` of indices or a `range(idx0, idx1)`. -/
inductive Rng where
  | lst (l : List ℕ)
  | rng (a b : ℕ)
deriving DecidableEq, Repr

/-- The index sequence a `Rng` denotes (`range(a, b)` is `[a, ..., b-1]`). -/
def rngToList : Rng → List ℕ
  | .lst l => l
  | .rng a b => List.range' a (b - a)

/-- The `for i, p in enumerate(parts_comma)` loop of `disect_variable`: a
part without `..` must be an in-bounds integer appended to the list (an
error if an ellipsis came first); a part split by `..` into two pieces
yields `range(idx0, idx1)` with the missing sides defaulted to `0`/`n`,
each bound validated; anything else fails. -/
def rangePartsLoop (n : ℕ) : List (List Char) → Rng → Option Rng
  | [], acc => some acc
  | p :: rest, acc =>
    match splitOnDots p with
    | [q] =>
      match pyInt? q with
      | none => none
      | some idx =>
        if 0 ≤ idx ∧ idx < (n : ℤ) then
          match acc with
          | .lst l => rangePartsLoop n rest (.lst (l ++ [idx.toNat]))
          | .rng _ _ => none
        else none
    | [q0, q1] =>
      match (if q0 = [] then some 0 else pyInt? q0) with
      | none => none
      | some i0 =>
        if 0 ≤ i0 ∧ i0 ≤ (n : ℤ) then
          match (if lstripChar '.' q1 = [] then some (n : ℤ)
                 else pyInt? (lstripChar '.' q1)) with
          | none => none
          | some i1 =>
            if i0 ≤ i1 ∧ i1 ≤ (n : ℤ) then
              rangePartsLoop n rest (.rng i0.toNat i1.toNat)
            else none
        else none
    | _ => none

/-- `Cases.disect_variable` (`err_level=2`, where every `handle_error`
raises): split the key on the first `[`; resolve the alias to its element
count `n`; with a bracketed range, strip the closing bracket and
whitespace, split on commas and run the range loop; without one, a scalar
alias yields `[0]` and a vector alias all of `range(n)`. -/
def disect_variable (vtbl : List (List Char × ℕ)) (key : List Char) :
    Option (List Char × List ℕ) :=
  let pr := partitionChar '[' key
  match lookupAssoc vtbl pr.1 with
  | none => none
  | some n =>
    if pr.2 ≠ [] then
      match rangePartsLoop n (pySplit ',' (stripWs (rstripChar ']' pr.2)))
          (Rng.lst []) with
      | none => none
      | some rng => some (pr.1, rngToList rng)
    else if n = 1 then some (pr.1, [0])
    else some (pr.1, List.range n)

/-- `",".join(parts)`. -/
def joinComma : List (List Char) → List Char
  | [] => []
  | [p] => p
  | p :: rest => p ++ ',' :: joinComma rest

theorem joinComma_cons_cons (p q : List Char) (rest : List (List Char)) :
    joinComma (p :: q :: rest) = p ++ ',' :: joinComma (q :: rest) := rfl

theorem digit_not_mem (k : Char) (hk : k.isDigit = false) (s : List Char)
    (hd : s.all Char.isDigit = true) : k ∉ s := fun hm => by
  have := List.all_eq_true.mp hd k hm
  rw [hk] at this
  cases this

theorem pySplit_joinComma (parts : List (List Char))
    (h : ∀ p ∈ parts, ',' ∉ p) (hne : parts ≠ []) :
    pySplit ',' (joinComma parts) = parts := by
  induction parts with
  | nil => exact absurd rfl hne
  | cons p rest ih =>
    cases rest with
    | nil =>
      show pySplit ',' p = [p]
      exact pySplit_not_mem ',' p (h p (by simp))
    | cons q rest2 =>
      rw [joinComma_cons_cons, pySplit_append ',' p _ (h p (by simp)),
        ih (fun x hx => h x (by simp [hx])) (by simp)]

/-- The bracketed path of `disect_variable` reduced to the range loop, for a
body without whitespace or closing brackets. -/
theorem disect_variable_bracketed (tbl : List (List Char × ℕ))
    (pre body : List Char) (n : ℕ)
    (hpre : '[' ∉ pre) (hlk : lookupAssoc tbl pre = some n)
    (hwb : ∀ x ∈ body, x.isWhitespace = false) (hrb : ']' ∉ body) :
    disect_variable tbl (pre ++ '[' :: (body ++ [']'])) =
      match rangePartsLoop n (pySplit ',' body) (Rng.lst []) with
      | none => none
      | some rng => some (pre, rngToList rng) := by
  unfold disect_variable
  rw [partitionChar_append '[' pre (body ++ [']']) hpre]
  dsimp only
  rw [hlk]
  dsimp only
  rw [if_pos (by simp : ¬(body ++ [']'] : List Char) = []),
    rstripChar_concat ']' body hrb, stripWs_eq_self body hwb]

theorem rangePartsLoop_indices (n : ℕ) (parts : List (List Char)) (l : List ℕ)
    (h : ∀ p ∈ parts, p ≠ [] ∧ p.all Char.isDigit = true ∧ digitsToNat p < n) :
    rangePartsLoop n parts (Rng.lst l) =
      some (Rng.lst (l ++ parts.map digitsToNat)) := by
  induction parts generalizing l with
  | nil => simp [rangePartsLoop]
  | cons p rest ih =>
    obtain ⟨hp0, hpd, hpn⟩ := h p (by simp)
    have hnd : '.' ∉ p := digit_not_mem '.' (by decide) p hpd
    have hb : 0 ≤ (digitsToNat p : ℤ) ∧ (digitsToNat p : ℤ) < (n : ℤ) :=
      ⟨Int.ofNat_nonneg _, by exact_mod_cast hpn⟩
    simp only [rangePartsLoop, splitOnDots_no_dot p hnd,
      pyInt?_digits p hp0 hpd]
    rw [if_pos hb]
    rw [Int.toNat_natCast, ih (l ++ [digitsToNat p])
      fun q hq => h q (by simp [hq])]
    simp

theorem rangePartsLoop_oob_head (n : ℕ) (s : List Char)
    (rest : List (List Char)) (acc : Rng)
    (hs0 : s ≠ []) (hsd : s.all Char.isDigit = true) (hge : n ≤ digitsToNat s) :
    rangePartsLoop n (s :: rest) acc = none := by
  have hnd : '.' ∉ s := digit_not_mem '.' (by decide) s hsd
  have hb : ¬(0 ≤ (digitsToNat s : ℤ) ∧ (digitsToNat s : ℤ) < (n : ℤ)) := by
    push_neg
    intro _
    exact_mod_cast hge
  simp only [rangePartsLoop, splitOnDots_no_dot s hnd,
    pyInt?_digits s hs0 hsd]
  rw [if_neg hb]

theorem lstripChar_digits (s : List Char) (h : s.all Char.isDigit = true) :
    lstripChar '.' s = s := by
  unfold lstripChar
  refine dropWhile_eq_self_of_not _ s fun x hx => ?_
  have := List.all_eq_true.mp h x hx
  simpa using digit_ne x '.' this (by decide)

theorem rangePartsLoop_ellipsis (n : ℕ) (body s0 q1 s1 : List Char)
    (hsplit : splitOnDots body = [s0, q1])
    (hstrip : lstripChar '.' q1 = s1)
    (h0 : s0.all Char.isDigit = true) (h1 : s1.all Char.isDigit = true)
    (hab : (if s0 = [] then 0 else digitsToNat s0) ≤
      (if s1 = [] then n else digitsToNat s1))
    (hbn : (if s1 = [] then n else digitsToNat s1) ≤ n) :
    rangePartsLoop n [body] (Rng.lst []) =
      some (Rng.rng (if s0 = [] then 0 else digitsToNat s0)
        (if s1 = [] then n else digitsToNat s1)) := by
  have hi0 : (if s0 = [] then some 0 else pyInt? s0) =
      some ((if s0 = [] then 0 else digitsToNat s0 : ℕ) : ℤ) := by
    by_cases h : s0 = []
    · simp [h]
    · rw [if_neg h, if_neg h, pyInt?_digits s0 h h0]
  have hi1 : (if lstripChar '.' q1 = [] then some (n : ℤ)
      else pyInt? (lstripChar '.' q1)) =
      some ((if s1 = [] then n else digitsToNat s1 : ℕ) : ℤ) := by
    rw [hstrip]
    by_cases h : s1 = []
    · simp [h]
    · rw [if_neg h, if_neg h, pyInt?_digits s1 h h1]
  have han : (if s0 = [] then 0 else digitsToNat s0) ≤ n := le_trans hab hbn
  simp only [rangePartsLoop, hsplit, hi0]
  rw [if_pos ⟨Int.ofNat_nonneg _, by exact_mod_cast han⟩]
  rw [hi1]
  dsimp only
  rw [if_pos ⟨by exact_mod_cast hab, by exact_mod_cast hbn⟩]
  rw [Int.toNat_natCast, Int.toNat_natCast]

theorem mem_joinComma (parts : List (List Char)) (x : Char)
    (hx : x ∈ joinComma parts) : (∃ p ∈ parts, x ∈ p) ∨ x = ',' := by
  induction parts with
  | nil => simp [joinComma] at hx
  | cons p rest ih =>
    cases rest with
    | nil => exact Or.inl ⟨p, by simp, hx⟩
    | cons q rest2 =>
      rw [joinComma_cons_cons] at hx
      rcases List.mem_append.mp hx with h | h
      · exact Or.inl ⟨p, by simp, h⟩
      · rcases List.mem_cons.mp h with rfl | h2
        · exact Or.inr rfl
        · rcases ih h2 with ⟨p', hp', hxp⟩ | rfl
          · exact Or.inl ⟨p', by simp [hp'], hxp⟩
          · exact Or.inr rfl

/-- C8: for every alias with `n` elements, `disect_variable` on an
unbracketed key yields the indices `0..n-1` (`[0]` when `n = 1`); `[i]`
yields `[i]`; a comma-separated list yields exactly those indices; an
ellipsis range `[a..b]` or `[a...b]` yields the half-open range from `a`
(default 0) up to but excluding `b` (default `n`); a single index at or
beyond the element count fails with an (initialization-time)
`AssertionError`. -/
theorem disect_variable_range_rules (tbl : List (List Char × ℕ))
    (pre : List Char) (n : ℕ)
    (hpre : '[' ∉ pre) (hlk : lookupAssoc tbl pre = some n) :
    (disect_variable tbl pre = some (pre, List.range n)) ∧
    (n = 1 → disect_variable tbl pre = some (pre, [0])) ∧
    (∀ s : List Char, s ≠ [] → s.all Char.isDigit = true → digitsToNat s < n →
      disect_variable tbl (pre ++ '[' :: (s ++ [']'])) =
        some (pre, [digitsToNat s])) ∧
    (∀ parts : List (List Char), parts ≠ [] →
      (∀ p ∈ parts, p ≠ [] ∧ p.all Char.isDigit = true ∧ digitsToNat p < n) →
      disect_variable tbl (pre ++ '[' :: (joinComma parts ++ [']'])) =
        some (pre, parts.map digitsToNat)) ∧
    (∀ s0 s1 : List Char, s0.all Char.isDigit = true →
      s1.all Char.isDigit = true →
      (if s0 = [] then 0 else digitsToNat s0) ≤
        (if s1 = [] then n else digitsToNat s1) →
      (if s1 = [] then n else digitsToNat s1) ≤ n →
      disect_variable tbl (pre ++ '[' :: ((s0 ++ '.' :: '.' :: s1) ++ [']'])) =
        some (pre, List.range' (if s0 = [] then 0 else digitsToNat s0)
          ((if s1 = [] then n else digitsToNat s1) -
            (if s0 = [] then 0 else digitsToNat s0))) ∧
      disect_variable tbl
          (pre ++ '[' :: ((s0 ++ '.' :: '.' :: '.' :: s1) ++ [']'])) =
        some (pre, List.range' (if s0 = [] then 0 else digitsToNat s0)
          ((if s1 = [] then n else digitsToNat s1) -
            (if s0 = [] then 0 else digitsToNat s0)))) ∧
    (∀ s : List Char, s ≠ [] → s.all Char.isDigit = true → n ≤ digitsToNat s →
      disect_variable tbl (pre ++ '[' :: (s ++ [']'])) = none) := by
  have hnobr : ∀ (s : List Char), s.all Char.isDigit = true →
      ∀ x ∈ s, x.isWhitespace = false := fun s hs x hx =>
    isWhitespace_eq_false_of_isDigit x (List.all_eq_true.mp hs x hx)
  refine ⟨?_, ?_, ?_, ?_, ?_, ?_⟩
  · unfold disect_variable
    rw [partitionChar_not_mem '[' pre hpre]
    dsimp only
    rw [hlk]
    dsimp only
    rw [if_neg (by simp)]
    by_cases h1 : n = 1
    · subst h1
      rw [if_pos rfl, (by decide : List.range 1 = [0])]
    · rw [if_neg h1]
  · intro h1
    subst h1
    unfold disect_variable
    rw [partitionChar_not_mem '[' pre hpre]
    dsimp only
    rw [hlk]
    dsimp only
    rw [if_neg (by simp), if_pos rfl]
  · intro s hs0 hsd hsn
    rw [disect_variable_bracketed tbl pre s n hpre hlk (hnobr s hsd)
      (digit_not_mem ']' (by decide) s hsd)]
    rw [pySplit_not_mem ',' s (digit_not_mem ',' (by decide) s hsd)]
    rw [rangePartsLoop_indices n [s] []
      (by intro p hp; rw [List.mem_singleton] at hp; subst hp
          exact ⟨hs0, hsd, hsn⟩)]
    simp [rngToList]
  · intro parts hpne hall
    have hwb : ∀ x ∈ joinComma parts, x.isWhitespace = false := by
      intro x hx
      rcases mem_joinComma parts x hx with ⟨p, hp, hxp⟩ | rfl
      · exact isWhitespace_eq_false_of_isDigit x
          (List.all_eq_true.mp (hall p hp).2.1 x hxp)
      · decide
    have hrb : ']' ∉ joinComma parts := by
      intro hm
      rcases mem_joinComma parts ']' hm with ⟨p, hp, hxp⟩ | he
      · exact absurd (List.all_eq_true.mp (hall p hp).2.1 ']' hxp) (by decide)
      · cases he
    rw [disect_variable_bracketed tbl pre (joinComma parts) n hpre hlk hwb hrb]
    rw [pySplit_joinComma parts
      (fun p hp => digit_not_mem ',' (by decide) p (hall p hp).2.1) hpne]
    rw [rangePartsLoop_indices n parts []
      fun p hp => ⟨(hall p hp).1, (hall p hp).2.1, (hall p hp).2.2⟩]
    simp [rngToList]
  · intro s0 s1 h0 h1 hab hbn
    have hd0 : '.' ∉ s0 := digit_not_mem '.' (by decide) s0 h0
    have hd1 : '.' ∉ s1 := digit_not_mem '.' (by decide) s1 h1
    have hmem2 : ∀ x ∈ s0 ++ '.' :: '.' :: s1,
        x ∈ s0 ∨ x = '.' ∨ x ∈ s1 := by
      intro x hx
      rcases List.mem_append.mp hx with h | h
      · exact Or.inl h
      · rcases List.mem_cons.mp h with rfl | h
        · exact Or.inr (Or.inl rfl)
        · rcases List.mem_cons.mp h with rfl | h
          · exact Or.inr (Or.inl rfl)
          · exact Or.inr (Or.inr h)
    have hmem3 : ∀ x ∈ s0 ++ '.' :: '.' :: '.' :: s1,
        x ∈ s0 ∨ x = '.' ∨ x ∈ s1 := by
      intro x hx
      rcases List.mem_append.mp hx with h | h
      · exact Or.inl h
      · rcases List.mem_cons.mp h with rfl | h
        · exact Or.inr (Or.inl rfl)
        · rcases List.mem_cons.mp h with rfl | h
          · exact Or.inr (Or.inl rfl)
          · rcases List.mem_cons.mp h with rfl | h
            · exact Or.inr (Or.inl rfl)
            · exact Or.inr (Or.inr h)
    have hwof : ∀ x : Char, x ∈ s0 ∨ x = '.' ∨ x ∈ s1 →
        x.isWhitespace = false := by
      rintro x (h | rfl | h)
      · exact hnobr s0 h0 x h
      · decide
      · exact hnobr s1 h1 x h
    have hbof : ∀ x : Char, x ∈ s0 ∨ x = '.' ∨ x ∈ s1 → x ≠ ']' := by
      rintro x (h | rfl | h)
      · exact digit_ne x ']' (List.all_eq_true.mp h0 x h) (by decide)
      · decide
      · exact digit_ne x ']' (List.all_eq_true.mp h1 x h) (by decide)
    have hcof : ∀ x : Char, x ∈ s0 ∨ x = '.' ∨ x ∈ s1 → x ≠ ',' := by
      rintro x (h | rfl | h)
      · exact digit_ne x ',' (List.all_eq_true.mp h0 x h) (by decide)
      · decide
      · exact digit_ne x ',' (List.all_eq_true.mp h1 x h) (by decide)
    constructor
    · rw [disect_variable_bracketed tbl pre (s0 ++ '.' :: '.' :: s1) n hpre hlk
        (fun x hx => hwof x (hmem2 x hx))
        (fun hm => hbof ']' (hmem2 ']' hm) rfl)]
      rw [pySplit_not_mem ',' _ fun hm => hcof ',' (hmem2 ',' hm) rfl]
      rw [rangePartsLoop_ellipsis n (s0 ++ '.' :: '.' :: s1) s0 s1 s1
        (splitOnDots_append2 s0 s1 hd0 hd1) (lstripChar_digits s1 h1)
        h0 h1 hab hbn]
      rfl
    · rw [disect_variable_bracketed tbl pre (s0 ++ '.' :: '.' :: '.' :: s1) n
        hpre hlk (fun x hx => hwof x (hmem3 x hx))
        (fun hm => hbof ']' (hmem3 ']' hm) rfl)]
      rw [pySplit_not_mem ',' _ fun hm => hcof ',' (hmem3 ',' hm) rfl]
      have hstrip3 : lstripChar '.' ('.' :: s1) = s1 := by
        unfold lstripChar
        rw [List.dropWhile_cons, if_pos (by simp)]
        simpa [lstripChar] using lstripChar_digits s1 h1
      rw [rangePartsLoop_ellipsis n (s0 ++ '.' :: '.' :: '.' :: s1) s0
        ('.' :: s1) s1 (splitOnDots_append3 s0 s1 hd0 hd1) hstrip3
        h0 h1 hab hbn]
      rfl
  · intro s hs0 hsd hsn
    rw [disect_variable_bracketed tbl pre s n hpre hlk (hnobr s hsd)
      (digit_not_mem ']' (by decide) s hsd)]
    rw [pySplit_not_mem ',' s (digit_not_mem ',' (by decide) s hsd)]
    rw [rangePartsLoop_oob_head n s [] (Rng.lst []) hs0 hsd hsn]

/-- Witness for C8 on a three-element alias `x`. -/
theorem disect_variable_range_rules_witness :
    '[' ∉ "x".toList ∧
    ((disect_variable [("x".toList, 3)] "x".toList =
      some ("x".toList, List.range 3)) ∧
    (3 = 1 → disect_variable [("x".toList, 3)] "x".toList =
      some ("x".toList, [0])) ∧
    (∀ s : List Char, s ≠ [] → s.all Char.isDigit = true → digitsToNat s < 3 →
      disect_variable [("x".toList, 3)] ("x".toList ++ '[' :: (s ++ [']'])) =
        some ("x".toList, [digitsToNat s])) ∧
    (∀ parts : List (List Char), parts ≠ [] →
      (∀ p ∈ parts, p ≠ [] ∧ p.all Char.isDigit = true ∧ digitsToNat p < 3) →
      disect_variable [("x".toList, 3)]
          ("x".toList ++ '[' :: (joinComma parts ++ [']'])) =
        some ("x".toList, parts.map digitsToNat)) ∧
    (∀ s0 s1 : List Char, s0.all Char.isDigit = true →
      s1.all Char.isDigit = true →
      (if s0 = [] then 0 else digitsToNat s0) ≤
        (if s1 = [] then 3 else digitsToNat s1) →
      (if s1 = [] then 3 else digitsToNat s1) ≤ 3 →
      disect_variable [("x".toList, 3)]
          ("x".toList ++ '[' :: ((s0 ++ '.' :: '.' :: s1) ++ [']'])) =
        some ("x".toList, List.range' (if s0 = [] then 0 else digitsToNat s0)
          ((if s1 = [] then 3 else digitsToNat s1) -
            (if s0 = [] then 0 else digitsToNat s0))) ∧
      disect_variable [("x".toList, 3)]
          ("x".toList ++ '[' :: ((s0 ++ '.' :: '.' :: '.' :: s1) ++ [']'])) =
        some ("x".toList, List.range' (if s0 = [] then 0 else digitsToNat s0)
          ((if s1 = [] then 3 else digitsToNat s1) -
            (if s0 = [] then 0 else digitsToNat s0)))) ∧
    (∀ s : List Char, s ≠ [] → s.all Char.isDigit = true → 3 ≤ digitsToNat s →
      disect_variable [("x".toList, 3)] ("x".toList ++ '[' :: (s ++ [']'])) =
        none)) :=
  ⟨by decide,
    disect_variable_range_rules [("x".toList, 3)] "x".toList 3
      (by decide) (by decide)⟩

/-! ## Set-action merging (system_interface.py: `update_refs_values`,
`_add_set`) -/

/-- Python `list.index(r)` (`ValueError` modelled as `none`). -/
def pyIndex : List ℕ → ℕ → Option ℕ
  | [], _ => none
  | x :: rest, r => if x = r then some 0 else (pyIndex rest r).map (· + 1)

/-- The write loops of `update_refs_values`:
`for i, r in enumerate(refs): allvals[allrefs.index(r)] = values[i]`. -/
def writeVals (allrefs : List ℕ) : List (ℕ × ℚ) → List (Option ℚ) →
    Option (List (Option ℚ))
  | [], acc => some acc
  | (r, v) :: rest, acc =>
    match pyIndex allrefs r with
    | none => none
    | some i => writeVals allrefs rest (acc.set i (some v))

/-- The collection loop of `update_refs_values`: keep `(ref, value)` where
a value was written. -/
def collectGo : List (ℕ × Option ℚ) → List ℕ × List ℚ
  | [] => ([], [])
  | (_, none) :: rest => collectGo rest
  | (r, some v) :: rest =>
    let (rs, vs) := collectGo rest
    (r :: rs, v :: vs)

/-- `SystemInterface.update_refs_values`: write the base values, overwrite
with the new values, and collect the written positions in `allrefs` order. -/
def update_refs_values (allrefs baserefs : List ℕ) (basevals : List ℚ)
    (refs : List ℕ) (values : List ℚ) : Option (List ℕ × List ℚ) :=
  match writeVals allrefs (baserefs.zip basevals)
      (List.replicate allrefs.length none) with
  | none => none
  | some a1 =>
    match writeVals allrefs (refs.zip values) a1 with
    | none => none
    | some a2 => some (collectGo (allrefs.zip a2))

/-- A recorded set action `(cvar, comp, refs, values)`. -/
abbrev SetAction : Type :=
  List Char × List Char × List ℕ × List ℚ

/-- `SystemInterface._add_set` on one time slot: merge into the first action
matching `(cvar, comp)` via `update_refs_values`, else append a new action.
The entry assertion `len(refs) == len(values)` is the caller's. -/
def add_set (allrefs : List ℕ) (slot : List SetAction)
    (cvar comp : List Char) (refs : List ℕ) (values : List ℚ) :
    Option (List SetAction) :=
  match slot with
  | [] => some [(cvar, comp, refs, values)]
  | (c, k, r0, v0) :: rest =>
    if c = cvar ∧ k = comp then
      match update_refs_values allrefs r0 v0 refs values with
      | none => none
      | some (nr, nv) => some ((cvar, comp, nr, nv) :: rest)
    else
      match add_set allrefs rest cvar comp refs values with
      | none => none
      | some rest' => some ((c, k, r0, v0) :: rest')

/-- The merged value of reference `r` after `update_refs_values`: the new
registration wins where present, else the old one. -/
def mergedVal (baserefs : List ℕ) (basevals : List ℚ) (refs : List ℕ)
    (values : List ℚ) (r : ℕ) : Option ℚ :=
  match List.lookup r (refs.zip values) with
  | some v => some v
  | none => List.lookup r (baserefs.zip basevals)

theorem pyIndex_spec (l : List ℕ) (r : ℕ) (h : r ∈ l) :
    ∃ i, pyIndex l r = some i ∧ i < l.length ∧ l.getD i 0 = r := by
  induction l with
  | nil => simp at h
  | cons x rest ih =>
    by_cases hx : x = r
    · exact ⟨0, by simp [pyIndex, hx], by simp, by simp [hx]⟩
    · have hm : r ∈ rest := by
        rcases List.mem_cons.mp h with rfl | hm
        · exact absurd rfl hx
        · exact hm
      obtain ⟨i, hi, hlen, hget⟩ := ih hm
      exact ⟨i + 1, by simp [pyIndex, hx, hi], by simpa using hlen,
        by simpa using hget⟩

theorem lookup_eq_none_of_not_mem (pairs : List (ℕ × ℚ)) (k : ℕ)
    (h : k ∉ pairs.map Prod.fst) : List.lookup k pairs = none := by
  induction pairs with
  | nil => rfl
  | cons p rest ih =>
    obtain ⟨r, v⟩ := p
    have hrk : (k == r) = false :=
      beq_eq_false_iff_ne.mpr fun e => h (by simp [e])
    simp only [List.lookup]
    rw [hrk]
    exact ih fun hm => h (by simp [hm])

theorem writeVals_spec (allrefs : List ℕ) (pairs : List (ℕ × ℚ))
    (acc : List (Option ℚ))
    (hnd : allrefs.Nodup)
    (hsub : ∀ r ∈ pairs.map Prod.fst, r ∈ allrefs)
    (hpnd : (pairs.map Prod.fst).Nodup)
    (hlen : acc.length = allrefs.length) :
    ∃ out, writeVals allrefs pairs acc = some out ∧
      out.length = allrefs.length ∧
      ∀ j, j < allrefs.length →
        out.getD j none =
          (match List.lookup (allrefs.getD j 0) pairs with
           | some v => some v
           | none => acc.getD j none) := by
  induction pairs generalizing acc with
  | nil =>
    exact ⟨acc, rfl, hlen, fun j hj => by simp [List.lookup]⟩
  | cons p rest ih =>
    obtain ⟨r, v⟩ := p
    have hrmem : r ∈ allrefs := hsub r (by simp)
    obtain ⟨i, hidx, hilen, higet⟩ := pyIndex_spec allrefs r hrmem
    have hpnd' : (r :: rest.map Prod.fst).Nodup := by simpa using hpnd
    have hrnotin : r ∉ rest.map Prod.fst := (List.nodup_cons.mp hpnd').1
    have hnodup' := (List.nodup_cons.mp hpnd').2
    have hlen' : (acc.set i (some v)).length = allrefs.length := by
      rw [List.length_set]
      exact hlen
    obtain ⟨out, hout, holen, hoget⟩ := ih (acc.set i (some v))
      (fun q hq => hsub q (by simp [hq])) hnodup' hlen'
    refine ⟨out, ?_, holen, ?_⟩
    · simp only [writeVals, hidx]
      exact hout
    · intro j hj
      rw [hoget j hj, List.lookup_cons]
      by_cases hjr : allrefs.getD j 0 = r
      · have hij : i = j := by
          have hgi : allrefs.getD i 0 = allrefs.getD j 0 := by rw [higet, hjr]
          rw [List.getD_eq_getElem _ _ hilen, List.getD_eq_getElem _ _ hj] at hgi
          exact (List.Nodup.getElem_inj_iff hnd).mp hgi
        subst hij
        rw [(by simpa using hjr : (allrefs.getD i 0 == r) = true)]
        dsimp only
        rw [lookup_eq_none_of_not_mem rest _ (by rw [hjr]; exact hrnotin)]
        dsimp only
        rw [List.getD_eq_getElem _ _
          (show i < (acc.set i (some v)).length by
            rw [List.length_set, hlen]; exact hilen)]
        exact List.getElem_set_self _
      · rw [(by simpa using hjr : (allrefs.getD j 0 == r) = false)]
        dsimp only
        have hij : i ≠ j := fun e => hjr (by rw [← e, higet])
        have hset : (acc.set i (some v)).getD j none = acc.getD j none := by
          rw [List.getD_eq_getElem _ _
            (show j < (acc.set i (some v)).length by
              rw [List.length_set, hlen]; exact hj),
            List.getD_eq_getElem _ _
            (show j < acc.length by rw [hlen]; exact hj)]
          exact List.getElem_set_ne hij _
        rw [hset]

theorem collectGo_zip_map (l : List ℕ) (F : ℕ → Option ℚ) :
    collectGo (l.zip (l.map F)) =
      (l.filter (fun r => (F r).isSome),
       (l.filter fun r => (F r).isSome).map fun r => (F r).getD 0) := by
  induction l with
  | nil => rfl
  | cons x rest ih =>
    show collectGo ((x, F x) :: rest.zip (rest.map F)) = _
    cases hFx : F x with
    | none => simp [collectGo, hFx, ih, List.filter_cons]
    | some v =>
      show (let (rs, vs) := collectGo (rest.zip (rest.map F)); (x :: rs, v :: vs)) = _
      rw [ih]
      simp [List.filter_cons, hFx]

theorem update_refs_values_spec (allrefs baserefs refs : List ℕ)
    (basevals values : List ℚ)
    (hnd : allrefs.Nodup)
    (hbsub : ∀ r ∈ baserefs, r ∈ allrefs) (hrsub : ∀ r ∈ refs, r ∈ allrefs)
    (hbnd : baserefs.Nodup) (hrnd : refs.Nodup)
    (hbl : basevals.length = baserefs.length)
    (hrl : values.length = refs.length) :
    update_refs_values allrefs baserefs basevals refs values =
      some
        (allrefs.filter
          (fun r => (mergedVal baserefs basevals refs values r).isSome),
         (allrefs.filter
          fun r => (mergedVal baserefs basevals refs values r).isSome).map
            fun r => (mergedVal baserefs basevals refs values r).getD 0) := by
  have hmf1 : (baserefs.zip basevals).map Prod.fst = baserefs :=
    List.map_fst_zip _ _ (le_of_eq hbl.symm)
  have hmf2 : (refs.zip values).map Prod.fst = refs :=
    List.map_fst_zip _ _ (le_of_eq hrl.symm)
  have hrep : ∀ j, (List.replicate allrefs.length (none : Option ℚ)).getD j none
      = none := by
    intro j
    rw [List.getD_eq_getElem?_getD, List.getElem?_replicate]
    split <;> rfl
  obtain ⟨a1, ha1, ha1len, ha1get⟩ := writeVals_spec allrefs
    (baserefs.zip basevals) (List.replicate allrefs.length none) hnd
    (by rw [hmf1]; exact hbsub) (by rw [hmf1]; exact hbnd) (by simp)
  obtain ⟨a2, ha2, ha2len, ha2get⟩ := writeVals_spec allrefs
    (refs.zip values) a1 hnd
    (by rw [hmf2]; exact hrsub) (by rw [hmf2]; exact hrnd) ha1len
  have ha2eq : a2 = allrefs.map (mergedVal baserefs basevals refs values) := by
    refine List.ext_getElem (by rw [ha2len]; simp) fun n h1 h2 => ?_
    have hn : n < allrefs.length := by rw [← ha2len]; exact h1
    have hg2 := ha2get n hn
    have hg1 := ha1get n hn
    rw [hrep n] at hg1
    rw [hg1] at hg2
    rw [List.getD_eq_getElem _ _ h1] at hg2
    rw [hg2, List.getElem_map]
    have hgd : allrefs.getD n 0 = allrefs[n] := List.getD_eq_getElem _ _ hn
    rw [hgd]
    unfold mergedVal
    cases List.lookup allrefs[n] (refs.zip values) with
    | none =>
      cases List.lookup allrefs[n] (baserefs.zip basevals) with
      | none => rfl
      | some w => rfl
    | some v => rfl
  unfold update_refs_values
  rw [ha1]
  dsimp only
  rw [ha2]
  dsimp only
  rw [ha2eq, collectGo_zip_map]

theorem lookup_isSome_iff (pairs : List (ℕ × ℚ)) (k : ℕ) :
    (List.lookup k pairs).isSome = true ↔ k ∈ pairs.map Prod.fst := by
  induction pairs with
  | nil => simp [List.lookup]
  | cons p rest ih =>
    obtain ⟨r, v⟩ := p
    by_cases hk : k = r
    · subst hk
      simp [List.lookup_cons]
    · have hb : (k == r) = false := beq_eq_false_iff_ne.mpr hk
      rw [List.lookup_cons, hb]
      simpa [hk] using ih

theorem lookup_zip_map (l : List ℕ) (g : ℕ → ℚ) (r : ℕ) (h : r ∈ l) :
    List.lookup r (l.zip (l.map g)) = some (g r) := by
  induction l with
  | nil => simp at h
  | cons x rest ih =>
    show List.lookup r ((x, g x) :: rest.zip (rest.map g)) = _
    by_cases hx : r = x
    · subst hx
      simp [List.lookup_cons]
    · have hb : (r == x) = false := beq_eq_false_iff_ne.mpr hx
      rw [List.lookup_cons, hb]
      refine ih ?_
      rcases List.mem_cons.mp h with rfl | hm
      · exact absurd rfl hx
      · exact hm

theorem add_set_skip (allrefs : List ℕ) (pre rest : List SetAction)
    (cvar comp : List Char) (refs : List ℕ) (values : List ℚ)
    (hpre : ∀ a ∈ pre, ¬(a.1 = cvar ∧ a.2.1 = comp)) :
    add_set allrefs (pre ++ rest) cvar comp refs values =
      match add_set allrefs rest cvar comp refs values with
      | none => none
      | some rest' => some (pre ++ rest') := by
  induction pre with
  | nil =>
    rw [List.nil_append]
    cases add_set allrefs rest cvar comp refs values <;> rfl
  | cons a pre' ih =>
    obtain ⟨c, k, r0, v0⟩ := a
    have hnm : ¬(c = cvar ∧ k = comp) := hpre (c, k, r0, v0) (by simp)
    show add_set allrefs ((c, k, r0, v0) :: (pre' ++ rest)) cvar comp refs
      values = _
    simp only [add_set, if_neg hnm]
    rw [ih fun a ha => hpre a (by simp [ha])]
    cases add_set allrefs rest cvar comp refs values <;> rfl

/-- C3: merging a second set action into the slot of a
`(time, caseVariable, component)` key that already holds exactly one action:
the result still holds exactly one action for the key, its refs are the union
of old and new refs (in `allrefs` order, without duplicates), the new
registration's values stand at the overlapping and new refs and the old
values at the remaining old refs, positionally aligned with the refs
(stated via `lookup` over the ref/value zip). -/
theorem add_set_merge (allrefs : List ℕ) (pre post : List SetAction)
    (cvar comp : List Char) (orefs refs : List ℕ) (ovals values : List ℚ)
    (hnd : allrefs.Nodup)
    (hbsub : ∀ r ∈ orefs, r ∈ allrefs) (hrsub : ∀ r ∈ refs, r ∈ allrefs)
    (hbnd : orefs.Nodup) (hrnd : refs.Nodup)
    (hbl : ovals.length = orefs.length) (hrl : values.length = refs.length)
    (hpre : ∀ a ∈ pre, ¬(a.1 = cvar ∧ a.2.1 = comp)) :
    ∃ mrefs mvals,
      add_set allrefs (pre ++ (cvar, comp, orefs, ovals) :: post) cvar comp
          refs values =
        some (pre ++ (cvar, comp, mrefs, mvals) :: post) ∧
      mrefs.Nodup ∧
      (∀ r, r ∈ mrefs ↔ (r ∈ refs ∨ r ∈ orefs)) ∧
      mvals.length = mrefs.length ∧
      (∀ r ∈ refs,
        List.lookup r (mrefs.zip mvals) = List.lookup r (refs.zip values)) ∧
      (∀ r ∈ orefs, r ∉ refs →
        List.lookup r (mrefs.zip mvals) = List.lookup r (orefs.zip ovals)) := by
  have hmfo : (orefs.zip ovals).map Prod.fst = orefs :=
    List.map_fst_zip _ _ (le_of_eq hbl.symm)
  have hmfn : (refs.zip values).map Prod.fst = refs :=
    List.map_fst_zip _ _ (le_of_eq hrl.symm)
  set F := mergedVal orefs ovals refs values with hF
  have hFsome : ∀ r, (F r).isSome = true ↔ (r ∈ refs ∨ r ∈ orefs) := by
    intro r
    rw [hF]
    unfold mergedVal
    cases hlk : List.lookup r (refs.zip values) with
    | some v =>
      have : r ∈ refs := by
        rw [← hmfn]
        exact (lookup_isSome_iff _ r).mp (by rw [hlk]; rfl)
      simp [this]
    | none =>
      have hnotr : r ∉ refs := by
        intro hm
        have := (lookup_isSome_iff (refs.zip values) r).mpr (by rw [hmfn]; exact hm)
        rw [hlk] at this
        cases this
      constructor
      · intro hs
        exact Or.inr (by
          rw [← hmfo]
          exact (lookup_isSome_iff _ r).mp hs)
      · rintro (hm | hm)
        · exact absurd hm hnotr
        · exact (lookup_isSome_iff _ r).mpr (by rw [hmfo]; exact hm)
  refine ⟨allrefs.filter (fun r => (F r).isSome),
    (allrefs.filter fun r => (F r).isSome).map fun r => (F r).getD 0,
    ?_, ?_, ?_, ?_, ?_, ?_⟩
  · rw [add_set_skip allrefs pre _ cvar comp refs values hpre]
    show (match add_set allrefs ((cvar, comp, orefs, ovals) :: post) cvar comp
        refs values with
      | none => none
      | some rest' => some (pre ++ rest')) = _
    simp only [add_set, eq_self_iff_true, and_self, if_true]
    rw [update_refs_values_spec allrefs orefs refs ovals values hnd hbsub hrsub
      hbnd hrnd hbl hrl, hF]
  · exact List.Nodup.filter _ hnd
  · intro r
    rw [List.mem_filter]
    constructor
    · intro ⟨_, hs⟩
      exact (hFsome r).mp hs
    · intro h
      refine ⟨?_, (hFsome r).mpr h⟩
      rcases h with h | h
      · exact hrsub r h
      · exact hbsub r h
  · simp
  · intro r hr
    have hmem : r ∈ allrefs.filter fun r => (F r).isSome := by
      rw [List.mem_filter]
      exact ⟨hrsub r hr, (hFsome r).mpr (Or.inl hr)⟩
    rw [lookup_zip_map _ _ r hmem]
    have : ∃ w, List.lookup r (refs.zip values) = some w := by
      have := (lookup_isSome_iff (refs.zip values) r).mpr (by rw [hmfn]; exact hr)
      cases hlk : List.lookup r (refs.zip values) with
      | none => rw [hlk] at this; cases this
      | some w => exact ⟨w, rfl⟩
    obtain ⟨w, hw⟩ := this
    rw [hw]
    have hFr : F r = some w := by
      rw [hF]
      unfold mergedVal
      rw [hw]
    rw [hFr]
    rfl
  · intro r hro hrn
    have hmem : r ∈ allrefs.filter fun r => (F r).isSome := by
      rw [List.mem_filter]
      exact ⟨hbsub r hro, (hFsome r).mpr (Or.inr hro)⟩
    rw [lookup_zip_map _ _ r hmem]
    have hnone : List.lookup r (refs.zip values) = none :=
      lookup_eq_none_of_not_mem _ r (by rw [hmfn]; exact hrn)
    have : ∃ w, List.lookup r (orefs.zip ovals) = some w := by
      have := (lookup_isSome_iff (orefs.zip ovals) r).mpr (by rw [hmfo]; exact hro)
      cases hlk : List.lookup r (orefs.zip ovals) with
      | none => rw [hlk] at this; cases this
      | some w => exact ⟨w, rfl⟩
    obtain ⟨w, hw⟩ := this
    rw [hw]
    have hFr : F r = some w := by
      rw [hF]
      unfold mergedVal
      rw [hnone, hw]
    rw [hFr]
    rfl

/-- Witness for C3: merging the registration `refs [1,2] ↦ [30,40]` into an
existing action `refs [0,1] ↦ [10,20]` over `allrefs = [0,1,2]`. -/
theorem add_set_merge_witness :
    ([0, 1, 2] : List ℕ).Nodup ∧
    (∃ mrefs mvals,
      add_set [0, 1, 2]
          ([] ++ ("x".toList, "c".toList, [0, 1], [10, 20]) :: [])
          "x".toList "c".toList [1, 2] [30, 40] =
        some ([] ++ ("x".toList, "c".toList, mrefs, mvals) :: []) ∧
      mrefs.Nodup ∧
      (∀ r, r ∈ mrefs ↔ (r ∈ ([1, 2] : List ℕ) ∨ r ∈ ([0, 1] : List ℕ))) ∧
      mvals.length = mrefs.length ∧
      (∀ r ∈ ([1, 2] : List ℕ),
        List.lookup r (mrefs.zip mvals) =
          List.lookup r (([1, 2] : List ℕ).zip ([30, 40] : List ℚ))) ∧
      (∀ r ∈ ([0, 1] : List ℕ), r ∉ ([1, 2] : List ℕ) →
        List.lookup r (mrefs.zip mvals) =
          List.lookup r (([0, 1] : List ℕ).zip ([10, 20] : List ℚ)))) :=
  ⟨by decide,
    add_set_merge [0, 1, 2] [] [] "x".toList "c".toList [0, 1] [1, 2]
      [10, 20] [30, 40] (by decide) (by decide) (by decide) (by decide)
      (by decide) (by decide) (by decide) (by decide)⟩

/-! ## Case construction copy semantics (case.py: `Case.__init__`)

Python objects alias; the claim is about aliasing, so the tables live in an
explicit heap indexed by object ids.  `Case.__init__` for a non-base case
does `self.special = dict(parent.special)`,
`self.act_get = copy.deepcopy(parent.act_get)` and
`self.act_set = copy.deepcopy(parent.act_set)`: each is a fresh object whose
content is the parent's content at construction time (`special` holds only
scalar values, so the `dict(...)` copy is as deep as `deepcopy`). -/

/-- A recorded get action `(cvar, comp, refs)`. -/
abbrev GetAction : Type := List Char × List Char × List ℕ

/-- The heap of all case tables, indexed by object id. -/
structure Heap where
  specials : List (List (List Char × ℚ))
  gets : List (List (ℚ × List GetAction))
  sets : List (List (ℚ × List SetAction))

/-- A case's references (object ids) to its three tables. -/
structure CaseRef where
  specialId : ℕ
  getId : ℕ
  setId : ℕ

/-- The ids a case holds are live. -/
def Heap.validFor (h : Heap) (c : CaseRef) : Prop :=
  c.specialId < h.specials.length ∧ c.getId < h.gets.length ∧
    c.setId < h.sets.length

/-- The content of a case's `special` dict. -/
def Heap.specialOf (h : Heap) (c : CaseRef) : List (List Char × ℚ) :=
  h.specials.getD c.specialId []

/-- The content of a case's `act_get` table. -/
def Heap.getOf (h : Heap) (c : CaseRef) : List (ℚ × List GetAction) :=
  h.gets.getD c.getId []

/-- The content of a case's `act_set` table. -/
def Heap.setOf (h : Heap) (c : CaseRef) : List (ℚ × List SetAction) :=
  h.sets.getD c.setId []

/-- Non-base `Case.__init__`: allocate fresh tables holding copies of the
parent's current contents and hand the child the fresh ids. -/
def constructCase (h : Heap) (parent : CaseRef) : Heap × CaseRef :=
  (⟨h.specials ++ [h.specials.getD parent.specialId []],
    h.gets ++ [h.gets.getD parent.getId []],
    h.sets ++ [h.sets.getD parent.setId []]⟩,
   ⟨h.specials.length, h.gets.length, h.sets.length⟩)

/-- One in-place mutation of one of a case's tables (`special.update`,
`_add_actions`, ...), applied through that case's reference. -/
inductive Mut where
  | spec (f : List (List Char × ℚ) → List (List Char × ℚ))
  | got (f : List (ℚ × List GetAction) → List (ℚ × List GetAction))
  | set (f : List (ℚ × List SetAction) → List (ℚ × List SetAction))

/-- Apply one mutation through case `c`'s reference. -/
def applyMut (h : Heap) (c : CaseRef) : Mut → Heap
  | .spec f =>
    ⟨h.specials.set c.specialId (f (h.specials.getD c.specialId [])),
      h.gets, h.sets⟩
  | .got f =>
    ⟨h.specials, h.gets.set c.getId (f (h.gets.getD c.getId [])), h.sets⟩
  | .set f =>
    ⟨h.specials, h.gets, h.sets.set c.setId (f (h.sets.getD c.setId []))⟩

/-- Apply a sequence of mutations through case `c`'s reference. -/
def applyMuts (h : Heap) (c : CaseRef) : List Mut → Heap
  | [] => h
  | m :: ms => applyMuts (applyMut h c m) c ms

theorem getD_set_ne {α : Type} (l : List α) (i j : ℕ) (x d : α) (hij : i ≠ j) :
    (l.set i x).getD j d = l.getD j d := by
  rw [List.getD_eq_getElem?_getD, List.getD_eq_getElem?_getD,
    List.getElem?_set_ne hij]

theorem getD_append_length {α : Type} (l : List α) (x d : α) :
    (l ++ [x]).getD l.length d = x := by
  rw [List.getD_eq_getElem _ _ (by simp)]
  simp

/-- Mutating through `a` never changes what `b` sees, when their ids differ. -/
theorem applyMuts_other (a b : CaseRef)
    (h1 : a.specialId ≠ b.specialId) (h2 : a.getId ≠ b.getId)
    (h3 : a.setId ≠ b.setId) (ms : List Mut) (h : Heap) :
    (applyMuts h a ms).specialOf b = h.specialOf b ∧
    (applyMuts h a ms).getOf b = h.getOf b ∧
    (applyMuts h a ms).setOf b = h.setOf b := by
  induction ms generalizing h with
  | nil => exact ⟨rfl, rfl, rfl⟩
  | cons m ms ih =>
    obtain ⟨e1, e2, e3⟩ := ih (applyMut h a m)
    refine ⟨?_, ?_, ?_⟩
    · rw [show applyMuts h a (m :: ms) = applyMuts (applyMut h a m) a ms from rfl,
        e1]
      cases m with
      | spec f => exact getD_set_ne _ _ _ _ _ h1
      | got f => rfl
      | set f => rfl
    · rw [show applyMuts h a (m :: ms) = applyMuts (applyMut h a m) a ms from rfl,
        e2]
      cases m with
      | spec f => rfl
      | got f => exact getD_set_ne _ _ _ _ _ h2
      | set f => rfl
    · rw [show applyMuts h a (m :: ms) = applyMuts (applyMut h a m) a ms from rfl,
        e3]
      cases m with
      | spec f => rfl
      | got f => rfl
      | set f => exact getD_set_ne _ _ _ _ _ h3

/-- C4: a non-base case receives, at construction, independent copies of its
parent's `special`, `act_get` and `act_set` tables: the copies hold the
parent's contents as of construction, every later mutation applied through
the parent leaves the child's tables unchanged, and every mutation applied
through the child (its own spec fragment) leaves the parent's tables
unchanged. -/
theorem case_construction_copy (h : Heap) (p : CaseRef) (hv : h.validFor p) :
    ((constructCase h p).1.specialOf (constructCase h p).2 =
      h.specialOf p ∧
     (constructCase h p).1.getOf (constructCase h p).2 = h.getOf p ∧
     (constructCase h p).1.setOf (constructCase h p).2 = h.setOf p) ∧
    (∀ ms : List Mut,
      (applyMuts (constructCase h p).1 p ms).specialOf (constructCase h p).2 =
        (constructCase h p).1.specialOf (constructCase h p).2 ∧
      (applyMuts (constructCase h p).1 p ms).getOf (constructCase h p).2 =
        (constructCase h p).1.getOf (constructCase h p).2 ∧
      (applyMuts (constructCase h p).1 p ms).setOf (constructCase h p).2 =
        (constructCase h p).1.setOf (constructCase h p).2) ∧
    (∀ ms : List Mut,
      (applyMuts (constructCase h p).1 (constructCase h p).2 ms).specialOf p =
        (constructCase h p).1.specialOf p ∧
      (applyMuts (constructCase h p).1 (constructCase h p).2 ms).getOf p =
        (constructCase h p).1.getOf p ∧
      (applyMuts (constructCase h p).1 (constructCase h p).2 ms).setOf p =
        (constructCase h p).1.setOf p) := by
  obtain ⟨hv1, hv2, hv3⟩ := hv
  refine ⟨⟨?_, ?_, ?_⟩, fun ms => ?_, fun ms => ?_⟩
  · exact getD_append_length _ _ _
  · exact getD_append_length _ _ _
  · exact getD_append_length _ _ _
  · exact applyMuts_other p (constructCase h p).2
      (Nat.ne_of_lt hv1) (Nat.ne_of_lt hv2) (Nat.ne_of_lt hv3) ms _
  · exact applyMuts_other (constructCase h p).2 p
      (Nat.ne_of_gt hv1) (Nat.ne_of_gt hv2) (Nat.ne_of_gt hv3) ms _

/-- Witness for C4 on a one-case heap with concrete mutations. -/
theorem case_construction_copy_witness :
    (Heap.mk [[("stopTime".toList, 10)]] [[]] [[]]).validFor ⟨0, 0, 0⟩ ∧
    (((constructCase (Heap.mk [[("stopTime".toList, 10)]] [[]] [[]])
        ⟨0, 0, 0⟩).1.specialOf
        (constructCase (Heap.mk [[("stopTime".toList, 10)]] [[]] [[]])
          ⟨0, 0, 0⟩).2 =
      (Heap.mk [[("stopTime".toList, 10)]] [[]] [[]]).specialOf ⟨0, 0, 0⟩ ∧
     (constructCase (Heap.mk [[("stopTime".toList, 10)]] [[]] [[]])
        ⟨0, 0, 0⟩).1.getOf
        (constructCase (Heap.mk [[("stopTime".toList, 10)]] [[]] [[]])
          ⟨0, 0, 0⟩).2 =
      (Heap.mk [[("stopTime".toList, 10)]] [[]] [[]]).getOf ⟨0, 0, 0⟩ ∧
     (constructCase (Heap.mk [[("stopTime".toList, 10)]] [[]] [[]])
        ⟨0, 0, 0⟩).1.setOf
        (constructCase (Heap.mk [[("stopTime".toList, 10)]] [[]] [[]])
          ⟨0, 0, 0⟩).2 =
      (Heap.mk [[("stopTime".toList, 10)]] [[]] [[]]).setOf ⟨0, 0, 0⟩) ∧
    (∀ ms : List Mut,
      (applyMuts (constructCase (Heap.mk [[("stopTime".toList, 10)]] [[]] [[]])
          ⟨0, 0, 0⟩).1 ⟨0, 0, 0⟩ ms).specialOf
        (constructCase (Heap.mk [[("stopTime".toList, 10)]] [[]] [[]])
          ⟨0, 0, 0⟩).2 =
        (constructCase (Heap.mk [[("stopTime".toList, 10)]] [[]] [[]])
          ⟨0, 0, 0⟩).1.specialOf
          (constructCase (Heap.mk [[("stopTime".toList, 10)]] [[]] [[]])
            ⟨0, 0, 0⟩).2 ∧
      (applyMuts (constructCase (Heap.mk [[("stopTime".toList, 10)]] [[]] [[]])
          ⟨0, 0, 0⟩).1 ⟨0, 0, 0⟩ ms).getOf
        (constructCase (Heap.mk [[("stopTime".toList, 10)]] [[]] [[]])
          ⟨0, 0, 0⟩).2 =
        (constructCase (Heap.mk [[("stopTime".toList, 10)]] [[]] [[]])
          ⟨0, 0, 0⟩).1.getOf
          (constructCase (Heap.mk [[("stopTime".toList, 10)]] [[]] [[]])
            ⟨0, 0, 0⟩).2 ∧
      (applyMuts (constructCase (Heap.mk [[("stopTime".toList, 10)]] [[]] [[]])
          ⟨0, 0, 0⟩).1 ⟨0, 0, 0⟩ ms).setOf
        (constructCase (Heap.mk [[("stopTime".toList, 10)]] [[]] [[]])
          ⟨0, 0, 0⟩).2 =
        (constructCase (Heap.mk [[("stopTime".toList, 10)]] [[]] [[]])
          ⟨0, 0, 0⟩).1.setOf
          (constructCase (Heap.mk [[("stopTime".toList, 10)]] [[]] [[]])
            ⟨0, 0, 0⟩).2) ∧
    (∀ ms : List Mut,
      (applyMuts (constructCase (Heap.mk [[("stopTime".toList, 10)]] [[]] [[]])
          ⟨0, 0, 0⟩).1
          (constructCase (Heap.mk [[("stopTime".toList, 10)]] [[]] [[]])
            ⟨0, 0, 0⟩).2 ms).specialOf ⟨0, 0, 0⟩ =
        (constructCase (Heap.mk [[("stopTime".toList, 10)]] [[]] [[]])
          ⟨0, 0, 0⟩).1.specialOf ⟨0, 0, 0⟩ ∧
      (applyMuts (constructCase (Heap.mk [[("stopTime".toList, 10)]] [[]] [[]])
          ⟨0, 0, 0⟩).1
          (constructCase (Heap.mk [[("stopTime".toList, 10)]] [[]] [[]])
            ⟨0, 0, 0⟩).2 ms).getOf ⟨0, 0, 0⟩ =
        (constructCase (Heap.mk [[("stopTime".toList, 10)]] [[]] [[]])
          ⟨0, 0, 0⟩).1.getOf ⟨0, 0, 0⟩ ∧
      (applyMuts (constructCase (Heap.mk [[("stopTime".toList, 10)]] [[]] [[]])
          ⟨0, 0, 0⟩).1
          (constructCase (Heap.mk [[("stopTime".toList, 10)]] [[]] [[]])
            ⟨0, 0, 0⟩).2 ms).setOf ⟨0, 0, 0⟩ =
        (constructCase (Heap.mk [[("stopTime".toList, 10)]] [[]] [[]])
          ⟨0, 0, 0⟩).1.setOf ⟨0, 0, 0⟩)) :=
  ⟨⟨by decide, by decide, by decide⟩,
    case_construction_copy (Heap.mk [[("stopTime".toList, 10)]] [[]] [[]])
      ⟨0, 0, 0⟩ ⟨by decide, by decide, by decide⟩⟩

/-! ## The run loop (case.py: `Case.run`, `do_actions`)

The loop is embedded as a trace generator: each simulator call becomes an
event.  `setCall sched t a` is `simulator.do_action` for the set action `a`
scheduled at `sched` and issued at clock time `t`; `runUntil target` is the
`simulator.run_until(time)` call; `getCall sched t a` is the get action's
`do_action` together with its `Results.add` recording.  The `ok` parameter
is the simulator's `run_until` success; the loop breaks on failure exactly
as the source does.  `fuel` bounds the iteration count; the loop exits on
`time > tstop` on its own, so any sufficiently large fuel yields the full
trace. -/

/-- One observable simulator interaction of `Case.run`. -/
inductive Ev where
  | setCall (sched : ℚ) (t : ℤ) (a : SetAction)
  | runUntil (target : ℤ)
  | getCall (sched : ℚ) (t : ℤ) (a : GetAction)
deriving DecidableEq, Repr

/-- `do_actions` over the set-action iterator: issue every batch whose time
is `≤ time` (`while time >= _t`), return the events and the remaining
batches. -/
def doActionsSet (time : ℤ) : List (ℚ × List SetAction) →
    List Ev × List (ℚ × List SetAction)
  | [] => ([], [])
  | (t, acts) :: rest =>
    if t ≤ (time : ℚ) then
      let p := doActionsSet time rest
      (acts.map (Ev.setCall t time) ++ p.1, p.2)
    else ([], (t, acts) :: rest)

/-- `do_actions` over the get-action iterator. -/
def doActionsGet (time : ℤ) : List (ℚ × List GetAction) →
    List Ev × List (ℚ × List GetAction)
  | [] => ([], [])
  | (t, acts) :: rest =>
    if t ≤ (time : ℚ) then
      let p := doActionsGet time rest
      (acts.map (Ev.getCall t time) ++ p.1, p.2)
    else ([], (t, acts) :: rest)

/-- The main simulation loop of `Case.run`: issue due set actions, advance
the clock, stop past `tstop`, call `run_until` (stop on failure), then issue
due get actions. -/
def runLoop : ℕ → ℤ → ℤ → ℤ → (ℤ → Bool) → List (ℚ × List SetAction) →
    List (ℚ × List GetAction) → List Ev
  | 0, _, _, _, _, _, _ => []
  | fuel + 1, time, tstop, tstep, ok, aset, aget =>
    let ds := doActionsSet time aset
    if time + tstep > tstop then ds.1
    else if ok (time + tstep) = false then ds.1 ++ [Ev.runUntil (time + tstep)]
    else
      let dg := doActionsGet (time + tstep) aget
      ds.1 ++ Ev.runUntil (time + tstep) :: dg.1 ++
        runLoop fuel (time + tstep) tstop tstep ok ds.2 dg.2

/-- `Case.run`'s loop from `tstart`, with fuel ample for a positive step. -/
def case_run_trace (tstart tstop tstep : ℤ) (ok : ℤ → Bool)
    (aset : List (ℚ × List SetAction)) (aget : List (ℚ × List GetAction)) :
    List Ev :=
  runLoop ((tstop - tstart).toNat + 1) tstart tstop tstep ok aset aget

theorem doActionsSet_fst_mem (time : ℤ) (l : List (ℚ × List SetAction))
    (ev : Ev) (h : ev ∈ (doActionsSet time l).1) :
    ∃ sched acts a, (sched, acts) ∈ l ∧ a ∈ acts ∧
      ev = Ev.setCall sched time a ∧ sched ≤ (time : ℚ) := by
  induction l with
  | nil => simp [doActionsSet] at h
  | cons b rest ih =>
    obtain ⟨t, acts⟩ := b
    by_cases ht : t ≤ (time : ℚ)
    · simp only [doActionsSet, if_pos ht] at h
      rcases List.mem_append.mp h with h' | h'
      · obtain ⟨a, ha, rfl⟩ := List.mem_map.mp h'
        exact ⟨t, acts, a, by simp, ha, rfl, ht⟩
      · obtain ⟨s, ac, a, hm, ha, he, hs⟩ := ih h'
        exact ⟨s, ac, a, by simp [hm], ha, he, hs⟩
    · simp [doActionsSet, if_neg ht] at h

theorem doActionsSet_snd_sublist (time : ℤ) (l : List (ℚ × List SetAction)) :
    (doActionsSet time l).2.Sublist l := by
  induction l with
  | nil => simp [doActionsSet]
  | cons b rest ih =>
    obtain ⟨t, acts⟩ := b
    by_cases ht : t ≤ (time : ℚ)
    · simp only [doActionsSet, if_pos ht]
      exact ih.cons _
    · simp [doActionsSet, if_neg ht]

theorem doActionsSet_snd_gt (time : ℤ) (l : List (ℚ × List SetAction))
    (hsort : l.Pairwise (fun a b => a.1 < b.1))
    (b : ℚ × List SetAction) (hb : b ∈ (doActionsSet time l).2) :
    (time : ℚ) < b.1 := by
  induction l with
  | nil => simp [doActionsSet] at hb
  | cons p rest ih =>
    obtain ⟨t, acts⟩ := p
    by_cases ht : t ≤ (time : ℚ)
    · simp only [doActionsSet, if_pos ht] at hb
      exact ih (List.pairwise_cons.mp hsort).2 hb
    · simp only [doActionsSet, if_neg ht] at hb
      rcases List.mem_cons.mp hb with rfl | hb'
      · exact not_le.mp ht
      · exact lt_trans (not_le.mp ht)
          ((List.pairwise_cons.mp hsort).1 b hb')

theorem doActionsGet_fst_mem (time : ℤ) (l : List (ℚ × List GetAction))
    (ev : Ev) (h : ev ∈ (doActionsGet time l).1) :
    ∃ sched acts a, (sched, acts) ∈ l ∧ a ∈ acts ∧
      ev = Ev.getCall sched time a ∧ sched ≤ (time : ℚ) := by
  induction l with
  | nil => simp [doActionsGet] at h
  | cons b rest ih =>
    obtain ⟨t, acts⟩ := b
    by_cases ht : t ≤ (time : ℚ)
    · simp only [doActionsGet, if_pos ht] at h
      rcases List.mem_append.mp h with h' | h'
      · obtain ⟨a, ha, rfl⟩ := List.mem_map.mp h'
        exact ⟨t, acts, a, by simp, ha, rfl, ht⟩
      · obtain ⟨s, ac, a, hm, ha, he, hs⟩ := ih h'
        exact ⟨s, ac, a, by simp [hm], ha, he, hs⟩
    · simp [doActionsGet, if_neg ht] at h

theorem runLoop_setCall_mem (fuel : ℕ) (time tstop tstep : ℤ) (ok : ℤ → Bool)
    (aset : List (ℚ × List SetAction)) (aget : List (ℚ × List GetAction))
    (sched : ℚ) (st : ℤ) (a : SetAction)
    (h : Ev.setCall sched st a ∈ runLoop fuel time tstop tstep ok aset aget) :
    ∃ acts, (sched, acts) ∈ aset ∧ a ∈ acts := by
  induction fuel generalizing time aset aget with
  | zero => simp [runLoop] at h
  | succ fuel ih =>
    rw [runLoop] at h
    by_cases hstop : time + tstep > tstop
    · rw [if_pos hstop] at h
      obtain ⟨s, ac, a', hm, ha, he, _⟩ := doActionsSet_fst_mem time aset _ h
      obtain ⟨rfl, rfl⟩ : sched = s ∧ a = a' := by
        injection he with h1 h2 h3
        exact ⟨h1, h3⟩
      exact ⟨ac, hm, ha⟩
    · rw [if_neg hstop] at h
      by_cases hok : ok (time + tstep) = false
      · rw [if_pos hok] at h
        rcases List.mem_append.mp h with h' | h'
        · obtain ⟨s, ac, a', hm, ha, he, _⟩ :=
            doActionsSet_fst_mem time aset _ h'
          obtain ⟨rfl, rfl⟩ : sched = s ∧ a = a' := by
            injection he with h1 h2 h3
            exact ⟨h1, h3⟩
          exact ⟨ac, hm, ha⟩
        · simp at h'
      · rw [if_neg hok] at h
        rcases List.mem_append.mp h with h' | h3
        · rcases List.mem_append.mp h' with hds | hmid
          · obtain ⟨s, ac, a', hm, ha, he, _⟩ :=
              doActionsSet_fst_mem time aset _ hds
            obtain ⟨rfl, rfl⟩ : sched = s ∧ a = a' := by
              injection he with h1 h2 h3
              exact ⟨h1, h3⟩
            exact ⟨ac, hm, ha⟩
          · rcases List.mem_cons.mp hmid with he | h4
            · cases he
            · obtain ⟨s, ac, a', _, _, he, _⟩ :=
                doActionsGet_fst_mem (time + tstep) aget _ h4
              cases he
        · obtain ⟨ac, hm, ha⟩ := ih (time + tstep) _ _ h3
          exact ⟨ac, (doActionsSet_snd_sublist time aset).mem hm, ha⟩

theorem mem_of_getElem? {α : Type} (l : List α) (i : ℕ) (x : α)
    (h : l[i]? = some x) : x ∈ l := by
  rw [List.getElem?_eq_some_iff] at h
  obtain ⟨hi, rfl⟩ := h
  exact List.getElem_mem hi

theorem getElem?_three_region {α : Type} (u : List α) (m : α) (v w : List α)
    (x : α) (j : ℕ) (h : ((u ++ m :: v) ++ w)[j]? = some x) :
    (j < u.length ∧ u[j]? = some x) ∨
    (j = u.length ∧ x = m) ∨
    (u.length < j ∧ j < u.length + 1 + v.length ∧
      v[j - u.length - 1]? = some x) ∨
    (u.length + 1 + v.length ≤ j ∧
      w[j - (u.length + 1 + v.length)]? = some x) := by
  by_cases h1 : j < u.length
  · left
    refine ⟨h1, ?_⟩
    rw [List.getElem?_append_left (by simp only [List.length_append, List.length_cons]; omega),
      List.getElem?_append_left h1] at h
    exact h
  · by_cases h2 : j = u.length
    · right; left
      refine ⟨h2, ?_⟩
      subst h2
      rw [List.getElem?_append_left (by simp only [List.length_append, List.length_cons]; omega),
        List.getElem?_append_right (le_refl _)] at h
      simp at h
      exact h.symm
    · by_cases h3 : j < u.length + 1 + v.length
      · right; right; left
        refine ⟨by omega, h3, ?_⟩
        rw [List.getElem?_append_left (by simp only [List.length_append, List.length_cons]; omega),
          List.getElem?_append_right (by omega : u.length ≤ j)] at h
        rw [show j - u.length = (j - u.length - 1) + 1 by omega,
          List.getElem?_cons_succ] at h
        exact h
      · right; right; right
        refine ⟨by omega, ?_⟩
        rw [List.getElem?_append_right (by simp only [List.length_append, List.length_cons]; omega)] at h
        rw [show j - (u ++ m :: v).length = j - (u.length + 1 + v.length) by
          simp; omega] at h
        exact h

theorem getElem?_mid {α : Type} (u : List α) (m : α) (v w : List α) :
    ((u ++ m :: v) ++ w)[u.length]? = some m := by
  rw [List.getElem?_append_left (by simp only [List.length_append, List.length_cons]; omega),
    List.getElem?_append_right (le_refl _)]
  simp

theorem getElem?_far {α : Type} (u : List α) (m : α) (v w : List α)
    (i : ℕ) (x : α) (h : w[i]? = some x) :
    ((u ++ m :: v) ++ w)[u.length + 1 + v.length + i]? = some x := by
  rw [List.getElem?_append_right (by simp only [List.length_append, List.length_cons]; omega)]
  rw [show u.length + 1 + v.length + i - (u ++ m :: v).length = i by
    simp; omega]
  exact h

theorem getElem?_two_region {α : Type} (u : List α) (m : α) (x : α) (j : ℕ)
    (h : (u ++ [m])[j]? = some x) :
    (j < u.length ∧ u[j]? = some x) ∨ (j = u.length ∧ x = m) := by
  by_cases h1 : j < u.length
  · left
    refine ⟨h1, ?_⟩
    rw [List.getElem?_append_left h1] at h
    exact h
  · right
    have hlen : j < u.length + 1 := by
      have := (List.getElem?_eq_some_iff.mp h).1
      simpa using this
    have h2 : j = u.length := by omega
    refine ⟨h2, ?_⟩
    subst h2
    rw [List.getElem?_append_right (le_refl _)] at h
    simp at h
    exact h.symm

/-- C5 (amended): in every run of a case, every set action whose scheduled
time is grid-aligned (at most the loop's start time, or start plus a whole
number of steps) is issued before any `run_until` call whose target lies
beyond that scheduled time; and every get action is executed only after a
`run_until` call has advanced the simulation to a time at or past its
scheduled time (namely the `run_until` of the same iteration).  Set actions
scheduled strictly between grid points are issued only at the next grid
time, after `run_until` has already advanced past them (see the
counterexample). -/
theorem runLoop_ordering (fuel : ℕ) (time tstop tstep : ℤ) (ok : ℤ → Bool)
    (aset : List (ℚ × List SetAction)) (aget : List (ℚ × List GetAction))
    (sched : ℚ)
    (htstep : 0 < tstep)
    (hsort : aset.Pairwise (fun a b => a.1 < b.1))
    (hgrid : sched ≤ (time : ℚ) ∨
      ∃ k : ℕ, sched = (time : ℚ) + (k : ℚ) * (tstep : ℚ)) :
    (∀ (i j : ℕ) (tgt st : ℤ) (a : SetAction),
      (runLoop fuel time tstop tstep ok aset aget)[i]? =
        some (Ev.runUntil tgt) →
      (runLoop fuel time tstop tstep ok aset aget)[j]? =
        some (Ev.setCall sched st a) →
      sched < (tgt : ℚ) → j < i) ∧
    (∀ (j : ℕ) (sc : ℚ) (st : ℤ) (a : GetAction),
      (runLoop fuel time tstop tstep ok aset aget)[j]? =
        some (Ev.getCall sc st a) →
      sc ≤ (st : ℚ) ∧ ∃ i : ℕ, i < j ∧
        (runLoop fuel time tstop tstep ok aset aget)[i]? =
          some (Ev.runUntil st)) := by
  have htsq : (0 : ℚ) < (tstep : ℚ) := by exact_mod_cast htstep
  induction fuel generalizing time aset aget with
  | zero =>
    constructor
    · intro i j tgt st a hi hj hlt
      simp [runLoop] at hi
    · intro j sc st a hj
      simp [runLoop] at hj
  | succ fuel ih =>
    by_cases bstop : time + tstep > tstop
    · have htr : runLoop (fuel + 1) time tstop tstep ok aset aget =
          (doActionsSet time aset).1 := by
        rw [runLoop]
        dsimp only
        rw [if_pos bstop]
      constructor
      · intro i j tgt st a hi hj hlt
        rw [htr] at hi
        obtain ⟨s, ac, a', hm, ha, he, hs⟩ :=
          doActionsSet_fst_mem time aset _ (mem_of_getElem? _ _ _ hi)
        cases he
      · intro j sc st a hj
        rw [htr] at hj
        obtain ⟨s, ac, a', hm, ha, he, hs⟩ :=
          doActionsSet_fst_mem time aset _ (mem_of_getElem? _ _ _ hj)
        cases he
    · by_cases bok : ok (time + tstep) = false
      · have htr : runLoop (fuel + 1) time tstop tstep ok aset aget =
            (doActionsSet time aset).1 ++ [Ev.runUntil (time + tstep)] := by
          rw [runLoop]
          dsimp only
          rw [if_neg bstop, if_pos bok]
        constructor
        · intro i j tgt st a hi hj hlt
          rw [htr] at hi hj
          rcases getElem?_two_region _ _ _ _ hj with ⟨hjlt, hjget⟩ | ⟨hjeq, hx⟩
          · rcases getElem?_two_region _ _ _ _ hi with ⟨hilt, higet⟩ | ⟨hieq, hx2⟩
            · obtain ⟨s, ac, a', hm, ha, he, hs⟩ := doActionsSet_fst_mem
                time aset _ (mem_of_getElem? _ _ _ higet)
              cases he
            · omega
          · cases hx
        · intro j sc st a hj
          rw [htr] at hj
          rcases getElem?_two_region _ _ _ _ hj with ⟨hjlt, hjget⟩ | ⟨hjeq, hx⟩
          · obtain ⟨s, ac, a', hm, ha, he, hs⟩ := doActionsSet_fst_mem
              time aset _ (mem_of_getElem? _ _ _ hjget)
            cases he
          · cases hx
      · have htr : runLoop (fuel + 1) time tstop tstep ok aset aget =
            ((doActionsSet time aset).1 ++ Ev.runUntil (time + tstep) ::
              (doActionsGet (time + tstep) aget).1) ++
            runLoop fuel (time + tstep) tstop tstep ok
              (doActionsSet time aset).2 (doActionsGet (time + tstep) aget).2 := by
          rw [runLoop]
          dsimp only
          rw [if_neg bstop, if_neg bok, List.append_assoc]
        have hsort' : (doActionsSet time aset).2.Pairwise
            (fun a b : ℚ × List SetAction => a.1 < b.1) :=
          List.Pairwise.sublist (doActionsSet_snd_sublist time aset) hsort
        have hgrid' : sched ≤ ((time + tstep : ℤ) : ℚ) ∨
            ∃ k : ℕ, sched = ((time + tstep : ℤ) : ℚ) + (k : ℚ) * (tstep : ℚ) := by
          rcases hgrid with hle | ⟨k, hk⟩
          · left
            push_cast
            linarith
          · match k with
            | 0 =>
              left
              push_cast
              simp at hk
              linarith
            | (k + 1 : ℕ) =>
              right
              refine ⟨k, ?_⟩
              rw [hk]
              push_cast
              ring
        obtain ⟨ihset, ihget⟩ := ih (time + tstep) (doActionsSet time aset).2
          (doActionsGet (time + tstep) aget).2 hsort' hgrid'
        constructor
        · intro i j tgt st a hi hj hlt
          rw [htr] at hi hj
          rcases getElem?_three_region _ _ _ _ _ _ hi with
            ⟨hilt, higet⟩ | ⟨hieq, hx⟩ | ⟨hi1, hi2, higet⟩ | ⟨hige, higet⟩
          · obtain ⟨s, ac, a', hm, ha, he, hs⟩ := doActionsSet_fst_mem
              time aset _ (mem_of_getElem? _ _ _ higet)
            cases he
          · have htgt : tgt = time + tstep := by
              injection hx
            subst htgt
            rcases getElem?_three_region _ _ _ _ _ _ hj with
              ⟨hjlt, _⟩ | ⟨hjeq, hx2⟩ | ⟨hj1, hj2, hjget⟩ | ⟨hjge, hjget⟩
            · omega
            · cases hx2
            · obtain ⟨s, ac, a', hm, ha, he, hs⟩ := doActionsGet_fst_mem
                (time + tstep) aget _ (mem_of_getElem? _ _ _ hjget)
              cases he
            · exfalso
              obtain ⟨ac, hmm, _⟩ := runLoop_setCall_mem fuel (time + tstep)
                tstop tstep ok _ _ sched st a (mem_of_getElem? _ _ _ hjget)
              have hgt : (time : ℚ) < sched :=
                doActionsSet_snd_gt time aset hsort (sched, ac) hmm
              push_cast at hlt
              rcases hgrid with hle | ⟨k, hk⟩
              · linarith
              · match k with
                | 0 =>
                  simp at hk
                  linarith
                | (k + 1 : ℕ) =>
                  push_cast at hk
                  have hk0 : (0 : ℚ) ≤ (k : ℚ) * (tstep : ℚ) :=
                    mul_nonneg (Nat.cast_nonneg k) (le_of_lt htsq)
                  linarith
          · obtain ⟨s, ac, a', hm, ha, he, hs⟩ := doActionsGet_fst_mem
              (time + tstep) aget _ (mem_of_getElem? _ _ _ higet)
            cases he
          · rcases getElem?_three_region _ _ _ _ _ _ hj with
              ⟨hjlt, _⟩ | ⟨hjeq, hx2⟩ | ⟨hj1, hj2, hjget⟩ | ⟨hjge, hjget⟩
            · omega
            · cases hx2
            · obtain ⟨s, ac, a', hm, ha, he, hs⟩ := doActionsGet_fst_mem
                (time + tstep) aget _ (mem_of_getElem? _ _ _ hjget)
              cases he
            · have := ihset
                (i - ((doActionsSet time aset).1.length + 1 +
                  (doActionsGet (time + tstep) aget).1.length))
                (j - ((doActionsSet time aset).1.length + 1 +
                  (doActionsGet (time + tstep) aget).1.length))
                tgt st a higet hjget hlt
              omega
        · intro j sc st a hj
          rw [htr] at hj
          rcases getElem?_three_region _ _ _ _ _ _ hj with
            ⟨hjlt, hjget⟩ | ⟨hjeq, hx⟩ | ⟨hj1, hj2, hjget⟩ | ⟨hjge, hjget⟩
          · obtain ⟨s, ac, a', hm, ha, he, hs⟩ := doActionsSet_fst_mem
              time aset _ (mem_of_getElem? _ _ _ hjget)
            cases he
          · cases hx
          · obtain ⟨s, ac, a', hm, ha, he, hs⟩ := doActionsGet_fst_mem
              (time + tstep) aget _ (mem_of_getElem? _ _ _ hjget)
            obtain ⟨rfl, rfl, rfl⟩ : sc = s ∧ st = time + tstep ∧ a = a' := by
              injection he with e1 e2 e3
              exact ⟨e1, e2, e3⟩
            refine ⟨hs, (doActionsSet time aset).1.length, by omega, ?_⟩
            rw [htr]
            exact getElem?_mid _ _ _ _
          · obtain ⟨hsc, i', hi', hrest⟩ := ihget
              (j - ((doActionsSet time aset).1.length + 1 +
                (doActionsGet (time + tstep) aget).1.length)) sc st a hjget
            refine ⟨hsc, (doActionsSet time aset).1.length + 1 +
              (doActionsGet (time + tstep) aget).1.length + i', by omega, ?_⟩
            rw [htr]
            exact getElem?_far _ _ _ _ i' _ hrest

/-- C5 counterexample: with `startTime 0`, `stopTime 4`, `stepSize 2` and a
set action scheduled at `t = 1` (between grid points), the run issues
`run_until(2)` — which advances the simulation past `t = 1` — *before* the
set action is issued: the `run_until` is the trace's first event and the set
call only its second, so the claim's "all set actions registered at t are
issued before the run_until call that advances the simulation past t" fails
at this run. -/
theorem run_loop_offgrid_counterexample :
    case_run_trace 0 4 2 (fun _ => true)
        [((1 : ℚ), [("v".toList, "c".toList, [0], [1])])] [] =
      [Ev.runUntil 2,
       Ev.setCall 1 2 ("v".toList, "c".toList, [0], [1]),
       Ev.runUntil 4] ∧
    (case_run_trace 0 4 2 (fun _ => true)
        [((1 : ℚ), [("v".toList, "c".toList, [0], [1])])] [])[0]? =
      some (Ev.runUntil 2) ∧
    (case_run_trace 0 4 2 (fun _ => true)
        [((1 : ℚ), [("v".toList, "c".toList, [0], [1])])] [])[1]? =
      some (Ev.setCall 1 2 ("v".toList, "c".toList, [0], [1])) ∧
    (1 : ℚ) < ((2 : ℤ) : ℚ) ∧
    ¬(1 < 0) :=
  ⟨by decide, by decide, by decide, by norm_num, by decide⟩

/-- Witness for C5 (amended) with a grid-aligned set action and a get
action, both at `t = 2`, over `startTime 0`, `stopTime 4`, `stepSize 2`. -/
theorem runLoop_ordering_witness :
    (0 : ℤ) < 2 ∧
    ((∀ (i j : ℕ) (tgt st : ℤ) (a : SetAction),
      (runLoop 5 0 4 2 (fun _ => true)
        [((2 : ℚ), [("v".toList, "c".toList, [0], [1])])]
        [((2 : ℚ), [("w".toList, "c".toList, [0])])])[i]? =
        some (Ev.runUntil tgt) →
      (runLoop 5 0 4 2 (fun _ => true)
        [((2 : ℚ), [("v".toList, "c".toList, [0], [1])])]
        [((2 : ℚ), [("w".toList, "c".toList, [0])])])[j]? =
        some (Ev.setCall 2 st a) →
      (2 : ℚ) < (tgt : ℚ) → j < i) ∧
    (∀ (j : ℕ) (sc : ℚ) (st : ℤ) (a : GetAction),
      (runLoop 5 0 4 2 (fun _ => true)
        [((2 : ℚ), [("v".toList, "c".toList, [0], [1])])]
        [((2 : ℚ), [("w".toList, "c".toList, [0])])])[j]? =
        some (Ev.getCall sc st a) →
      sc ≤ (st : ℚ) ∧ ∃ i : ℕ, i < j ∧
        (runLoop 5 0 4 2 (fun _ => true)
          [((2 : ℚ), [("v".toList, "c".toList, [0], [1])])]
          [((2 : ℚ), [("w".toList, "c".toList, [0])])])[i]? =
          some (Ev.runUntil st))) :=
  ⟨by decide,
    runLoop_ordering 5 0 4 2 (fun _ => true)
      [((2 : ℚ), [("v".toList, "c".toList, [0], [1])])]
      [((2 : ℚ), [("w".toList, "c".toList, [0])])] 2
      (by decide) (by decide) (Or.inr ⟨1, by norm_num⟩)⟩

end SimExplorer
